import Mathlib

/-!
Shallow embedding of `main.py` (3D maze generator and solver) together with
proofs about its algorithms.

Conventions of the embedding:
* a grid cell value is a `Nat`: `1` = wall, `0` = path (as in the source);
* coordinates are integer triples `(z, y, x)` exactly as in the source;
* the grid is a total function `Coord → Nat`; the source's numpy array is
  all-ones at construction and is only written in bounds, so cells outside
  the bounds simply keep value `1`;
* Python's global random source is modelled by an oracle `Nat → Nat`
  together with a counter `k`: the i-th random draw of a run reads
  `oracle i`, and a draw from a set of `n` alternatives uses `oracle i % n`.
  Quantifying over all oracles covers every possible sequence of random
  choices;
* loops are written with explicit fuel; sufficiency of the supplied fuel is
  proved (termination theorems below);
* the fields `acc` of the two state records are instrumentation only: they
  log the coordinates at which the grid is read or written, and no control
  flow depends on them.  Likewise `edges` in `CarveState` logs the carved
  lattice edges and `visited`'s list order is the insertion order.
-/

namespace Maze

/-- A coordinate triple `(z, y, x)`, as used for indexing in `main.py`. -/
abbrev Coord := Int × Int × Int

/-- The six axial unit directions, in the exact order of the list
`directions` in `main.py` (lines 32-36 and 78-82). -/
def directions : List Coord :=
  [(0, -1, 0), (0, 1, 0), (0, 0, -1), (0, 0, 1), (-1, 0, 0), (1, 0, 0)]

/-- The maze object of `main.py` (`Maze3D.__init__`, lines 15-23): fixed
dimensions, a grid (`1` = wall, `0` = path), plus the start and end
coordinates.  The source attribute `end` is a Lean keyword, so it is
called `endCell` here. -/
structure Maze3D where
  width : Nat
  height : Nat
  depth : Nat
  grid : Coord → Nat
  start : Coord
  endCell : Coord

/-- `Maze3D(width, height, depth)`: all-ones grid, `start = (0,0,0)`,
`end = (depth-1, height-1, width-1)` (lines 15-23). -/
def Maze3D.init (width height depth : Nat) : Maze3D :=
  { width := width
    height := height
    depth := depth
    grid := fun _ => 1
    start := (0, 0, 0)
    endCell := ((depth : Int) - 1, (height : Int) - 1, (width : Int) - 1) }

/-- The bounds check `0 <= z < depth and 0 <= y < height and 0 <= x < width`
used at lines 45-47 and 99-101 of the source. -/
def inBounds (m : Maze3D) (c : Coord) : Prop :=
  0 ≤ c.1 ∧ c.1 < (m.depth : Int) ∧
  0 ≤ c.2.1 ∧ c.2.1 < (m.height : Int) ∧
  0 ≤ c.2.2 ∧ c.2.2 < (m.width : Int)

instance (m : Maze3D) (c : Coord) : Decidable (inBounds m c) := by
  unfold inBounds; infer_instance

/-- Functional update of the grid: `grid[c] = v`. -/
def setCell (g : Coord → Nat) (c : Coord) (v : Nat) : Coord → Nat :=
  fun c2 => if c2 = c then v else g c2

/-- The finite set of in-bounds coordinates of a maze. -/
def box (m : Maze3D) : Finset Coord :=
  Finset.Icc (0 : Int) ((m.depth : Int) - 1) ×ˢ
    (Finset.Icc (0 : Int) ((m.height : Int) - 1) ×ˢ
      Finset.Icc (0 : Int) ((m.width : Int) - 1))

theorem mem_box (m : Maze3D) (c : Coord) : c ∈ box m ↔ inBounds m c := by
  obtain ⟨z, y, x⟩ := c
  simp only [box, inBounds, Finset.mem_product, Finset.mem_Icc]
  omega

/-! ### The carving algorithm (`generate_maze`, lines 25-70) -/

/-- State of the carving run.  `grid`, `visited`, `stack` and the oracle
counter `k` are the source's state; `edges` logs each carved lattice edge
`(base, direction, target)` and `acc` logs every written coordinate. -/
structure CarveState where
  grid : Coord → Nat
  visited : List Coord
  stack : List Coord
  edges : List (Coord × Coord × Coord)
  k : Nat
  acc : List Coord

/-- The neighbour enumeration of lines 42-49: the in-bounds, unvisited
cells at distance 2 from `c`, paired with their direction, in the fixed
order of `directions`. -/
def latticeNbrs (m : Maze3D) (visited : List Coord) (c : Coord) :
    List (Coord × Coord) :=
  directions.filterMap (fun d =>
    let n := c + d + d
    if inBounds m n ∧ n ∉ visited then some (n, d) else none)

/-- The carving loop of lines 38-59, with explicit fuel.  On a non-empty
stack it inspects the top cell; if unvisited lattice neighbours exist it
picks one with the oracle (`random.choice`), opens the wall cell and the
neighbour, marks it visited and pushes it; otherwise it pops. -/
def carveLoop (m : Maze3D) (oracle : Nat → Nat) :
    Nat → CarveState → CarveState
  | 0, s => s
  | fuel + 1, s =>
    match s.stack with
    | [] => s
    | c :: rest =>
      let ns := latticeNbrs m s.visited c
      if hne : ns = [] then
        carveLoop m oracle fuel { s with stack := rest }
      else
        let pick := ns.get ⟨oracle s.k % ns.length,
          Nat.mod_lt _ (List.length_pos.mpr hne)⟩
        let n := pick.1
        let d := pick.2
        let w := c + d
        carveLoop m oracle fuel
          { grid := setCell (setCell s.grid w 0) n 0
            visited := n :: s.visited
            stack := n :: s.stack
            edges := (c, d, n) :: s.edges
            k := s.k + 1
            acc := n :: w :: s.acc }

/-- Fuel that always suffices for `carveLoop` (proved below). -/
def carveFuel (m : Maze3D) : Nat := 2 * (box m).card + 2

/-- Lines 28-30: push `start`, open it, mark it visited.  `k0` is the
oracle position at which this run starts drawing randomness. -/
def carveInit (m : Maze3D) (k0 : Nat) : CarveState :=
  { grid := setCell m.grid m.start 0
    visited := [m.start]
    stack := [m.start]
    edges := []
    k := k0
    acc := [m.start] }

/-- The extra-openings loop of lines 66-70: each iteration draws a random
in-range `z`, `y`, `x` (`random.randint(0, dim - 1)`) and opens that cell. -/
def extraLoop (m : Maze3D) (oracle : Nat → Nat) :
    Nat → CarveState → CarveState
  | 0, s => s
  | t + 1, s =>
    let z : Int := (oracle s.k % m.depth : Nat)
    let y : Int := (oracle (s.k + 1) % m.height : Nat)
    let x : Int := (oracle (s.k + 2) % m.width : Nat)
    extraLoop m oracle t
      { s with grid := setCell s.grid (z, y, x) 0
               k := s.k + 3
               acc := (z, y, x) :: s.acc }

/-- The state immediately after the carving loop of lines 38-59 has run
(before `start`/`end` are forced open and before the extra openings). -/
def carveRun (m : Maze3D) (oracle : Nat → Nat) (k0 : Nat) : CarveState :=
  carveLoop m oracle (carveFuel m) (carveInit m k0)

/-- All of `generate_maze` (lines 25-70): the carving loop, then the
forced opening of `start` and `end` (lines 61-63), then
`min(5, width*height*depth // 20)` extra random openings (lines 65-70). -/
def generate (m : Maze3D) (oracle : Nat → Nat) (k0 : Nat) : CarveState :=
  let s1 := carveRun m oracle k0
  let s2 := { s1 with
    grid := setCell (setCell s1.grid m.start 0) m.endCell 0
    acc := m.endCell :: m.start :: s1.acc }
  extraLoop m oracle (min 5 (m.width * m.height * m.depth / 20)) s2

/-- The maze after `generate_maze` has run (the method mutates
`self.grid` in place; here the updated object is returned). -/
def generate_maze (m : Maze3D) (oracle : Nat → Nat) : Maze3D :=
  { m with grid := (generate m oracle 0).grid }

/-! ### The solving algorithm (`solve_maze`, lines 72-108) -/

/-- State of the BFS run.  `maze` is the `self` object (threaded so that
freedom from side effects on it is a provable statement), `queue` is the
FIFO frontier (head = front), `visited` the visited set, `parent` the
parent map as an association list (newest entry first), and `acc` logs
every coordinate at which the grid is read. -/
structure SolveState where
  maze : Maze3D
  queue : List Coord
  visited : List Coord
  parent : List (Coord × Option Coord)
  acc : List Coord

/-- Lines 74-76: `queue = deque([start])`, `visited = {start}`,
`parent = {start: None}`. -/
def solveInit (m : Maze3D) : SolveState :=
  { maze := m
    queue := [m.start]
    visited := [m.start]
    parent := [(m.start, none)]
    acc := [] }

/-- Association-list lookup, mirroring Python dict access `parent[c]`. -/
def plookup (c : Coord) : List (Coord × Option Coord) → Option (Option Coord)
  | [] => none
  | (a, po) :: t => if c = a then some po else plookup c t

/-- Path reconstruction of lines 88-94: walk parent links from `cur`,
collecting cells; the source appends and reverses at the end, which is the
same as prepending here.  (A missing key would be a `KeyError` in the
source; that branch is never reached, see the invariants below.) -/
def backtrack (par : List (Coord × Option Coord)) :
    Nat → Coord → List Coord → List Coord
  | 0, cur, acc => cur :: acc
  | fuel + 1, cur, acc =>
    match plookup cur par with
    | some (some p) => backtrack par fuel p (cur :: acc)
    | _ => cur :: acc

/-- The neighbour scan of lines 96-106 for the dequeued cell `c`, over a
direction list: each in-bounds, open, unvisited neighbour is marked
visited, given parent `c` and appended to the queue.  The grid is read
exactly when the bounds check passes (Python's `and` short-circuits), and
that read is logged in `acc`. -/
def expandDirs (c : Coord) : List Coord → SolveState → SolveState
  | [], s => s
  | d :: ds, s =>
    let n := c + d
    if inBounds s.maze n then
      if s.maze.grid n = 0 ∧ n ∉ s.visited then
        expandDirs c ds
          { s with queue := s.queue ++ [n]
                   visited := n :: s.visited
                   parent := (n, some c) :: s.parent
                   acc := n :: s.acc }
      else expandDirs c ds { s with acc := n :: s.acc }
    else expandDirs c ds s

/-- The BFS loop of lines 84-107, with explicit fuel (`none` = fuel ran
out, which is proved never to happen for the fuel below): dequeue; if the
cell is `end`, reconstruct and return the path; otherwise expand the six
neighbours; an emptied queue returns the empty path (line 108). -/
def solveLoop : Nat → SolveState → Option (SolveState × List Coord)
  | 0, _ => none
  | fuel + 1, s =>
    match s.queue with
    | [] => some (s, [])
    | c :: rest =>
      if c = s.maze.endCell then
        some (s, backtrack s.parent (s.parent.length + 1) s.maze.endCell [])
      else
        solveLoop fuel (expandDirs c directions { s with queue := rest })

/-- Fuel that always suffices for `solveLoop` (proved below). -/
def solveFuel (m : Maze3D) : Nat := 2 * (box m).card + 2

/-- A full run of `solve_maze` on `m`: final BFS state and returned path.
The `none` fallback is dead code by the termination theorem below. -/
def solveRun (m : Maze3D) : SolveState × List Coord :=
  match solveLoop (solveFuel m) (solveInit m) with
  | some r => r
  | none => (solveInit m, [])

/-- The path returned by `solve_maze` (lines 72-108). -/
def solve_maze (m : Maze3D) : List Coord := (solveRun m).2

/-! ### The retry loop of `main` (lines 181-205) -/

/-- The supervisor loop of `main`: up to `t` more attempts, the global
random source standing at position `k`.  Each attempt builds a fresh
`Maze3D(width=9, height=9, depth=5)`, carves it, solves it, and stops at
the first non-empty path.  Returns the outcome together with the number
of attempts actually performed. -/
def runAttempts (oracle : Nat → Nat) :
    Nat → Nat → Option (Maze3D × List Coord) × Nat
  | 0, _k => (none, 0)
  | t + 1, k =>
    let g := generate (Maze3D.init 9 9 5) oracle k
    let mz : Maze3D := { Maze3D.init 9 9 5 with grid := g.grid }
    let p := solve_maze mz
    if p = [] then
      let r := runAttempts oracle t g.k
      (r.1, r.2 + 1)
    else (some (mz, p), 1)

/-- `main`'s generation phase: `max_attempts = 10`, random source at 0. -/
def mainRun (oracle : Nat → Nat) : Option (Maze3D × List Coord) × Nat :=
  runAttempts oracle 10 0

/-- Oracle position after `i` complete generation attempts of `main`. -/
def kAfter (oracle : Nat → Nat) : Nat → Nat
  | 0 => 0
  | i + 1 => (generate (Maze3D.init 9 9 5) oracle (kAfter oracle i)).k

/-- The field one generation attempt of `main` produces when the random
source stands at position `k`. -/
def attemptMazeAt (oracle : Nat → Nat) (k : Nat) : Maze3D :=
  { Maze3D.init 9 9 5 with
    grid := (generate (Maze3D.init 9 9 5) oracle k).grid }

/-- The path one generation attempt of `main` finds when the random
source stands at position `k`. -/
def attemptPathAt (oracle : Nat → Nat) (k : Nat) : List Coord :=
  solve_maze (attemptMazeAt oracle k)

/-- The field produced by `main`'s attempt number `i` (0-based). -/
def attemptMaze (oracle : Nat → Nat) (i : Nat) : Maze3D :=
  attemptMazeAt oracle (kAfter oracle i)

/-- The path found by `main`'s attempt number `i` (0-based). -/
def attemptPath (oracle : Nat → Nat) (i : Nat) : List Coord :=
  attemptPathAt oracle (kAfter oracle i)

/-- Reference formulation of the supervisor contract (spec §4.3): try
attempts `i, i+1, ...` for at most `t` attempts, yield the first
`(grid, path)` pair with a non-empty path, and `none` if the budget is
exhausted. -/
def specSearch (oracle : Nat → Nat) : Nat → Nat → Option (Maze3D × List Coord)
  | _i, 0 => none
  | i, t + 1 =>
    if attemptPath oracle i = [] then specSearch oracle (i + 1) t
    else some (attemptMaze oracle i, attemptPath oracle i)

/-! ### Claim-side notions (graphs, paths, distances) -/

/-- Six-connected adjacency: `b` is one axial unit step from `a`
(exactly one coordinate differs, by 1). -/
def adj6 (a b : Coord) : Prop := ∃ d ∈ directions, b = a + d

instance (a b : Coord) : Decidable (adj6 a b) := by
  unfold adj6; infer_instance

/-- A cell of the grid that is Open: in bounds and of value 0. -/
def openCell (m : Maze3D) (c : Coord) : Prop := inBounds m c ∧ m.grid c = 0

instance (m : Maze3D) (c : Coord) : Decidable (openCell m c) := by
  unfold openCell; infer_instance

/-- A walk from `a` to `b` in the 6-connected graph of Open cells: a
non-empty coordinate sequence starting at `a`, ending at `b`, consisting
of Open cells, each consecutive pair 6-adjacent.  Its length minus one is
the edge count; the minimum over all such walks is the BFS distance. -/
def openPath (m : Maze3D) (a b : Coord) (q : List Coord) : Prop :=
  q ≠ [] ∧ q.head? = some a ∧ q.getLast? = some b ∧
    (∀ x ∈ q, openCell m x) ∧ q.Chain' adj6

/-- One admissible BFS move of `solve_maze`: `b` is 6-adjacent to `a`,
in bounds and open.  (The source checks nothing about `a` itself.) -/
def validStep (m : Maze3D) (a b : Coord) : Prop :=
  adj6 a b ∧ inBounds m b ∧ m.grid b = 0

/-- Reachability from `start` by in-bounds distance-2 axial steps (the
lattice moves of the carving loop; the grid content is never consulted). -/
def reach2 (m : Maze3D) (c : Coord) : Prop :=
  ∃ q : List Coord, q ≠ [] ∧ q.head? = some m.start ∧ q.getLast? = some c ∧
    (∀ x ∈ q, inBounds m x) ∧
    q.Chain' (fun a b => ∃ d ∈ directions, b = a + d + d)

/-- Keys of a parent association list. -/
def keysOf (l : List (Coord × Option Coord)) : List Coord := l.map Prod.fst

/-- Depth of a key in a parent association list: number of parent links
down to a root entry (an entry whose stored parent is `none`).  The
parent of an entry is looked up strictly deeper in the list, which is how
entries are inserted (parents before children), so this is structural. -/
def depthOf : List (Coord × Option Coord) → Coord → Option Nat
  | [], _ => none
  | (a, po) :: t, c =>
    if c = a then
      match po with
      | none => some 0
      | some p => (depthOf t p).map (· + 1)
    else depthOf t c

/-- Well-formedness of a parent association list: keys are distinct and
every stored parent already has a depth in the remainder of the list. -/
def AcycP : List (Coord × Option Coord) → Prop
  | [] => True
  | (a, po) :: t =>
    AcycP t ∧ a ∉ keysOf t ∧
      (po = none ∨ ∃ p, po = some p ∧ (depthOf t p).isSome)

/-- Recorded BFS depth of a coordinate in a solve state. -/
def dOf (s : SolveState) (c : Coord) : Nat := (depthOf s.parent c).getD 0

/-- Termination measure of the BFS loop. -/
def solveMeasure (m : Maze3D) (s : SolveState) : Nat :=
  2 * (box m \ s.visited.toFinset).card + s.queue.length

/-- Termination measure of the carving loop. -/
def carveMeasure (m : Maze3D) (s : CarveState) : Nat :=
  2 * (box m \ s.visited.toFinset).card + s.stack.length

/-- Loop invariant of the carving loop used for bounds, termination and
visitation claims. -/
structure CInv (m : Maze3D) (s : CarveState) : Prop where
  vis_nd : s.visited.Nodup
  stk_vis : ∀ c ∈ s.stack, c ∈ s.visited
  start_vis : m.start ∈ s.visited
  vis_bnd : ∀ c ∈ s.visited, inBounds m c
  vis_rch : ∀ c ∈ s.visited, reach2 m c
  closed : ∀ v ∈ s.visited, v ∉ s.stack → ∀ d ∈ directions,
    inBounds m (v + d + d) → v + d + d ∈ s.visited
  acc_bnd : ∀ c ∈ s.acc, inBounds m c

/-- Loop invariant of the BFS loop. -/
structure SInv (m : Maze3D) (s : SolveState) : Prop where
  maze_eq : s.maze = m
  vis_nd : s.visited.Nodup
  q_sub : ∀ c ∈ s.queue, c ∈ s.visited
  q_nd : s.queue.Nodup
  keys_vis : ∀ c, c ∈ keysOf s.parent ↔ c ∈ s.visited
  acyc : AcycP s.parent
  root_start : ∀ a po, plookup a s.parent = some po → po = none → a = m.start
  start_entry : plookup m.start s.parent = some none
  start_vis : m.start ∈ s.visited
  par_edges : ∀ a p, plookup a s.parent = some (some p) → validStep m p a
  q_sorted : s.queue.Pairwise (fun a b => dOf s a ≤ dOf s b)
  q_bound : ∀ v ∈ s.visited, ∀ c rest, s.queue = c :: rest → dOf s v ≤ dOf s c + 1
  expanded : ∀ v ∈ s.visited, v ∉ s.queue → ∀ d ∈ directions,
    validStep m v (v + d) → v + d ∈ s.visited ∧ dOf s (v + d) ≤ dOf s v + 1

/-- The carving history: `Carved st vs es` says the visited list `vs`
(newest first) and the carved edge log `es` were built from the single
cell `st` by repeatedly attaching a fresh cell `n = a + 2d` to an
already-visited cell `a`.  This is exactly how the carving loop extends
`visited` and `edges`. -/
inductive Carved (st : Coord) : List Coord → List (Coord × Coord × Coord) → Prop
  | nil : Carved st [st] []
  | cons {vs es} (a d n : Coord) : Carved st vs es → a ∈ vs → n ∉ vs →
      d ∈ directions → n = a + d + d → Carved st (n :: vs) ((a, d, n) :: es)

/-- All three coordinates even. -/
def EvenC (c : Coord) : Prop := c.1 % 2 = 0 ∧ c.2.1 % 2 = 0 ∧ c.2.2 % 2 = 0

/-- Exactly one of the three coordinates odd. -/
def OddOne (c : Coord) : Prop :=
  (c.1 % 2 ≠ 0 ∧ c.2.1 % 2 = 0 ∧ c.2.2 % 2 = 0) ∨
  (c.1 % 2 = 0 ∧ c.2.1 % 2 ≠ 0 ∧ c.2.2 % 2 = 0) ∨
  (c.1 % 2 = 0 ∧ c.2.1 % 2 = 0 ∧ c.2.2 % 2 ≠ 0)

/-- A simple path from `a` to `b` inside the vertex set `V`, under
6-connected adjacency. -/
def SP (V : Coord → Prop) (a b : Coord) (p : List Coord) : Prop :=
  p ≠ [] ∧ p.head? = some a ∧ p.getLast? = some b ∧
    (∀ x ∈ p, V x) ∧ p.Chain' adj6 ∧ p.Nodup

/-- The vertex set `V` carries a tree structure: it is connected and
between any two of its vertices there is exactly one simple path. -/
def UniquePaths (V : Coord → Prop) : Prop :=
  ∀ a b, V a → V b → ∃! p, SP V a b p

/-- The set of cells opened by a carve history: the visited lattice
cells together with the wall midpoints of the carved edges. -/
def carvedOpen (vs : List Coord) (es : List (Coord × Coord × Coord)) (c : Coord) :
    Prop :=
  c ∈ vs ∨ ∃ e ∈ es, c = e.1 + e.2.1

/-- Invariant of the carving loop used for the spanning-tree claim:
the stack holds visited cells, `visited`/`edges` form a carve history
from `start`, and the Open cells are exactly the visited cells plus the
carved wall midpoints. -/
structure TreeInv (m : Maze3D) (s : CarveState) : Prop where
  stk : ∀ c ∈ s.stack, c ∈ s.visited
  cvd : Carved m.start s.visited s.edges
  gchar : ∀ c, s.grid c = 0 ↔ carvedOpen s.visited s.edges c

/-- The all-zeroes oracle, used for concrete witness runs. -/
def zeroOracle : Nat → Nat := fun _ => 0

/-! ### Concrete fixtures for counterexamples and witnesses -/

/-- A 1 x 1 x 2 field whose start cell is Blocked and whose end cell is
Open.  A legitimate `GridField` state, on which `solve_maze` returns a
path that passes through the Blocked start. -/
def cexStartBlockedX : Maze3D :=
  { width := 2, height := 1, depth := 1
    grid := fun c => if c = (0, 0, 1) then 0 else 1
    start := (0, 0, 0), endCell := (0, 0, 1) }

/-- A 1 x 2 x 1 field whose start cell is Blocked and whose end cell is
Open. -/
def cexStartBlockedY : Maze3D :=
  { width := 1, height := 2, depth := 1
    grid := fun c => if c = (0, 1, 0) then 0 else 1
    start := (0, 0, 0), endCell := (0, 1, 0) }

/-- The freshly constructed all-Blocked 1 x 1 x 1 field (start = end,
both Blocked). -/
def cexAllBlocked : Maze3D := Maze3D.init 1 1 1

/-- A fully Open 1 x 1 x 2 field. -/
def witOpenX : Maze3D :=
  { width := 2, height := 1, depth := 1
    grid := fun _ => 0
    start := (0, 0, 0), endCell := (0, 0, 1) }

/-- A fully Open 1 x 2 x 1 field. -/
def witOpenY : Maze3D :=
  { width := 1, height := 2, depth := 1
    grid := fun _ => 0
    start := (0, 0, 0), endCell := (0, 1, 0) }

/-- A 1 x 1 x 3 field with an Open start, a sealed middle cell and an
Open but unreachable end. -/
def witSealed : Maze3D :=
  { width := 3, height := 1, depth := 1
    grid := fun c => if c = (0, 0, 1) then 1 else 0
    start := (0, 0, 0), endCell := (0, 0, 2) }

/-! ## Theorems -/

/-! ### Grid write lemmas and open-cell monotonicity -/

theorem setCell_self (g : Coord → Nat) (c : Coord) (v : Nat) :
    setCell g c v c = v := by
  simp [setCell]

theorem setCell_zero {g : Coord → Nat} {c : Coord} (c' : Coord) (h : g c = 0) :
    setCell g c' 0 c = 0 := by
  unfold setCell; split <;> simp [h]

theorem carveLoop_grid_mono (m : Maze3D) (oracle : Nat → Nat) (c : Coord) :
    ∀ fuel s, s.grid c = 0 → (carveLoop m oracle fuel s).grid c = 0 := by
  intro fuel
  induction fuel with
  | zero => intro s h; simpa [carveLoop] using h
  | succ f ih =>
    intro s h
    rw [carveLoop]
    cases hs : s.stack with
    | nil => simpa using h
    | cons hd rest =>
      dsimp only
      split
      · exact ih _ h
      · exact ih _ (setCell_zero _ (setCell_zero _ h))

theorem extraLoop_grid_mono (m : Maze3D) (oracle : Nat → Nat) (c : Coord) :
    ∀ t s, s.grid c = 0 → (extraLoop m oracle t s).grid c = 0 := by
  intro t
  induction t with
  | zero => intro s h; simpa [extraLoop] using h
  | succ t ih =>
    intro s h
    rw [extraLoop]
    exact ih _ (setCell_zero _ h)

/-- Claim C10 — `generate_maze` never re-blocks a cell: on any initial
field and for every sequence of random choices, a cell that is Open
before the call is still Open after it (every grid write of
`generate_maze` stores the value 0). -/
theorem claim10_open_monotone (m : Maze3D) (oracle : Nat → Nat) (c : Coord)
    (h : m.grid c = 0) : (generate_maze m oracle).grid c = 0 := by
  unfold generate_maze generate carveRun
  dsimp only
  apply extraLoop_grid_mono
  dsimp only
  apply setCell_zero
  apply setCell_zero
  exact carveLoop_grid_mono m oracle c _ _ (setCell_zero _ h)

/-- Witness for C10 on a concrete Open cell of a concrete field. -/
theorem claim10_open_monotone_witness :
    witOpenX.grid (0, 0, 1) = 0 ∧
      (generate_maze witOpenX zeroOracle).grid (0, 0, 1) = 0 :=
  ⟨rfl, claim10_open_monotone witOpenX zeroOracle (0, 0, 1) rfl⟩

/-- Claim C3 — after `generate_maze` the start and end cells are Open,
for every field with positive dimensions and every sequence of random
choices (lines 61-63 force them open and the extra openings of lines
66-70 only ever write the Open value). -/
theorem claim3_start_end_open (m : Maze3D) (oracle : Nat → Nat)
    (_hw : 0 < m.width) (_hh : 0 < m.height) (_hd : 0 < m.depth) :
    (generate_maze m oracle).grid m.start = 0 ∧
      (generate_maze m oracle).grid m.endCell = 0 := by
  unfold generate_maze generate carveRun
  dsimp only
  constructor
  · apply extraLoop_grid_mono
    exact setCell_zero _ (setCell_self _ _ _)
  · apply extraLoop_grid_mono
    exact setCell_self _ _ _

/-- Witness for C3 on a concrete field. -/
theorem claim3_start_end_open_witness :
    0 < (Maze3D.init 3 3 3).width ∧ 0 < (Maze3D.init 3 3 3).height ∧
      0 < (Maze3D.init 3 3 3).depth ∧
      ((generate_maze (Maze3D.init 3 3 3) zeroOracle).grid
          (Maze3D.init 3 3 3).start = 0 ∧
        (generate_maze (Maze3D.init 3 3 3) zeroOracle).grid
          (Maze3D.init 3 3 3).endCell = 0) :=
  ⟨by decide, by decide, by decide,
    claim3_start_end_open (Maze3D.init 3 3 3) zeroOracle
      (by decide) (by decide) (by decide)⟩

/-! ### The BFS touches no maze state (frame property) -/

theorem expandDirs_maze (c : Coord) :
    ∀ ds s, (expandDirs c ds s).maze = s.maze := by
  intro ds
  induction ds with
  | nil => intro s; rfl
  | cons d ds ih =>
    intro s
    rw [expandDirs]
    split
    · split
      · rw [ih]
      · rw [ih]
    · rw [ih]

theorem solveLoop_maze :
    ∀ fuel s r, solveLoop fuel s = some r → r.1.maze = s.maze := by
  intro fuel
  induction fuel with
  | zero => intro s r h; simp [solveLoop] at h
  | succ f ih =>
    intro s r h
    rw [solveLoop] at h
    cases hq : s.queue with
    | nil => rw [hq] at h; simp at h; rw [← h]
    | cons c rest =>
      rw [hq] at h
      dsimp only at h
      split at h
      · simp at h; rw [← h]
      · have := ih _ _ h
        rw [this, expandDirs_maze]

/-- Claim C9 — `solve_maze` is side-effect-free on the field: the maze
object threaded through the whole BFS run (grid, dimensions, start and
end) is returned unchanged, and the solver's visited/parent/queue
structures are created afresh at `solveInit` on every call. -/
theorem claim9_solve_frame (m : Maze3D) : (solveRun m).1.maze = m := by
  unfold solveRun
  cases h : solveLoop (solveFuel m) (solveInit m) with
  | none => rfl
  | some r => exact solveLoop_maze _ _ _ h

/-! ### The supervisor loop (claim C6) -/

theorem runAttempts_succ (oracle : Nat → Nat) (t k : Nat) :
    runAttempts oracle (t + 1) k =
      if attemptPathAt oracle k = [] then
        ((runAttempts oracle t (generate (Maze3D.init 9 9 5) oracle k).k).1,
          (runAttempts oracle t (generate (Maze3D.init 9 9 5) oracle k).k).2 + 1)
      else (some (attemptMazeAt oracle k, attemptPathAt oracle k), 1) := rfl

theorem runAttempts_eq_specSearch (oracle : Nat → Nat) :
    ∀ t i, (runAttempts oracle t (kAfter oracle i)).1 = specSearch oracle i t ∧
      (runAttempts oracle t (kAfter oracle i)).2 ≤ t := by
  intro t
  induction t with
  | zero => intro i; exact ⟨rfl, Nat.le_refl 0⟩
  | succ t ih =>
    intro i
    rw [runAttempts_succ, specSearch]
    have hk : (generate (Maze3D.init 9 9 5) oracle (kAfter oracle i)).k =
        kAfter oracle (i + 1) := rfl
    have hp : attemptPathAt oracle (kAfter oracle i) = attemptPath oracle i := rfl
    rw [hk, hp]
    by_cases h : attemptPath oracle i = []
    · rw [if_pos h, if_pos h]
      exact ⟨(ih (i + 1)).1, Nat.succ_le_succ (ih (i + 1)).2⟩
    · rw [if_neg h, if_neg h]
      exact ⟨rfl, by omega⟩

theorem specSearch_none_iff (oracle : Nat → Nat) :
    ∀ t i, specSearch oracle i t = none ↔
      ∀ j, j < t → attemptPath oracle (i + j) = [] := by
  intro t
  induction t with
  | zero => intro i; simp [specSearch]
  | succ t ih =>
    intro i
    rw [specSearch]
    by_cases h : attemptPath oracle i = []
    · rw [if_pos h, ih (i + 1)]
      constructor
      · intro hall j hj
        cases j with
        | zero => simpa using h
        | succ j =>
          have := hall j (by omega)
          have e : i + 1 + j = i + (j + 1) := by omega
          rw [e] at this
          exact this
      · intro hall j hj
        have := hall (j + 1) (by omega)
        have e : i + 1 + j = i + (j + 1) := by omega
        rw [e]
        exact this
    · rw [if_neg h]
      exact iff_of_false (by simp)
        (fun hall => h (by simpa using hall 0 (Nat.succ_pos t)))

/-- Claim C6 — the supervisor loop of `main` performs at most 10 carve
and search attempts, yields the first attempt whose path is non-empty
(it equals the bounded first-success search `specSearch`), and when all
10 attempts produce empty paths it returns the explicit no-maze outcome
`none` instead of looping further or throwing. -/
theorem claim6_supervisor (oracle : Nat → Nat) :
    (mainRun oracle).1 = specSearch oracle 0 10 ∧
      (mainRun oracle).2 ≤ 10 ∧
      ((mainRun oracle).1 = none ↔ ∀ i, i < 10 → attemptPath oracle i = []) := by
  have h0 : kAfter oracle 0 = 0 := rfl
  have h := runAttempts_eq_specSearch oracle 10 0
  rw [h0] at h
  refine ⟨h.1, h.2, ?_⟩
  rw [show mainRun oracle = runAttempts oracle 10 0 from rfl, h.1,
    specSearch_none_iff oracle 10 0]
  constructor
  · intro hall i hi; simpa using hall i hi
  · intro hall i hi; simpa using hall i hi

/-! ### Carving loop: invariants, termination, visitation -/

theorem mem_latticeNbrs {m : Maze3D} {visited : List Coord} {c n d : Coord} :
    (n, d) ∈ latticeNbrs m visited c ↔
      d ∈ directions ∧ n = c + d + d ∧ inBounds m n ∧ n ∉ visited := by
  simp only [latticeNbrs, List.mem_filterMap]
  constructor
  · rintro ⟨d', hd', hf⟩
    split at hf
    · rename_i hcond
      simp only [Option.some.injEq, Prod.mk.injEq] at hf
      obtain ⟨h1, h2⟩ := hf
      subst h2; subst h1
      exact ⟨hd', rfl, hcond.1, hcond.2⟩
    · simp at hf
  · rintro ⟨hd, rfl, hb, hv⟩
    refine ⟨d, hd, ?_⟩
    show (if inBounds m (c + d + d) ∧ (c + d + d) ∉ visited then
      some (c + d + d, d) else none) = some (c + d + d, d)
    rw [if_pos ⟨hb, hv⟩]

theorem mid_inBounds {m : Maze3D} {c d : Coord} (hd : d ∈ directions)
    (hc : inBounds m c) (hn : inBounds m (c + d + d)) : inBounds m (c + d) := by
  obtain ⟨z, y, x⟩ := c
  simp only [directions, List.mem_cons, List.not_mem_nil, or_false] at hd
  rcases hd with rfl | rfl | rfl | rfl | rfl | rfl <;>
    (simp only [inBounds, Prod.mk_add_mk] at *; omega)

theorem reach2_step {m : Maze3D} {c n : Coord} (hr : reach2 m c)
    (hb : inBounds m n) (hstep : ∃ d ∈ directions, n = c + d + d) :
    reach2 m n := by
  obtain ⟨q, hne, hhead, hlast, hbnd, hchain⟩ := hr
  refine ⟨q ++ [n], by simp, ?_, ?_, ?_, ?_⟩
  · cases q with
    | nil => exact absurd rfl hne
    | cons a t => simpa using hhead
  · simp
  · intro x hx
    rcases List.mem_append.mp hx with hx | hx
    · exact hbnd x hx
    · simp at hx; subst hx; exact hb
  · rw [List.chain'_append]
    refine ⟨hchain, List.chain'_singleton n, ?_⟩
    intro a ha b hb'
    rw [hlast] at ha
    simp at ha hb'
    subst ha; subst hb'
    exact hstep

theorem carveLoop_cons (m : Maze3D) (oracle : Nat → Nat) (f : Nat)
    (s : CarveState) (c : Coord) (rest : List Coord) (hs : s.stack = c :: rest) :
    carveLoop m oracle (f + 1) s =
      if hne : latticeNbrs m s.visited c = [] then
        carveLoop m oracle f { s with stack := rest }
      else
        let pick := (latticeNbrs m s.visited c).get
          ⟨oracle s.k % (latticeNbrs m s.visited c).length,
            Nat.mod_lt _ (List.length_pos.mpr hne)⟩
        carveLoop m oracle f
          { grid := setCell (setCell s.grid (c + pick.2) 0) pick.1 0
            visited := pick.1 :: s.visited
            stack := pick.1 :: s.stack
            edges := (c, pick.2, pick.1) :: s.edges
            k := s.k + 1
            acc := pick.1 :: (c + pick.2) :: s.acc } := by
  rw [carveLoop, hs]

theorem carve_main (m : Maze3D) (oracle : Nat → Nat) :
    ∀ fuel s, CInv m s → carveMeasure m s < fuel →
      (carveLoop m oracle fuel s).stack = [] ∧
        CInv m (carveLoop m oracle fuel s) := by
  intro fuel
  induction fuel with
  | zero => intro s _ h; omega
  | succ f ih =>
    intro s hinv hfuel
    cases hs : s.stack with
    | nil =>
      have heq : carveLoop m oracle (f + 1) s = s := by rw [carveLoop, hs]
      rw [heq]
      exact ⟨hs, hinv⟩
    | cons c rest =>
      rw [carveLoop_cons m oracle f s c rest hs]
      have hcs : c ∈ s.visited :=
        hinv.stk_vis c (by rw [hs]; exact List.mem_cons_self c rest)
      split
      · rename_i hne
        apply ih
        · refine ⟨hinv.vis_nd, ?_, hinv.start_vis, hinv.vis_bnd,
            hinv.vis_rch, ?_, hinv.acc_bnd⟩
          · intro x hx
            exact hinv.stk_vis x (by rw [hs]; exact List.mem_cons_of_mem c hx)
          · intro v hv hvs d hd hb
            by_cases hvc : v = c
            · subst hvc
              by_contra hnm
              have hmem : (v + d + d, d) ∈ latticeNbrs m s.visited v :=
                mem_latticeNbrs.mpr ⟨hd, rfl, hb, hnm⟩
              rw [hne] at hmem
              exact absurd hmem (List.not_mem_nil _)
            · refine hinv.closed v hv ?_ d hd hb
              rw [hs]
              simp only [List.mem_cons, not_or]
              exact ⟨hvc, hvs⟩
        · have hlen : s.stack.length = rest.length + 1 := by rw [hs]; rfl
          unfold carveMeasure at hfuel ⊢
          dsimp only
          omega
      · rename_i hne
        dsimp only
        generalize hpk : (latticeNbrs m s.visited c).get
          ⟨oracle s.k % (latticeNbrs m s.visited c).length,
            Nat.mod_lt _ (List.length_pos.mpr hne)⟩ = pk
        have hmem : pk ∈ latticeNbrs m s.visited c := by
          rw [← hpk]; exact List.get_mem _ _ _
        have hmem2 : (pk.1, pk.2) ∈ latticeNbrs m s.visited c := by
          rw [Prod.mk.eta]; exact hmem
        obtain ⟨hd, hneq, hb, hnv⟩ := mem_latticeNbrs.mp hmem2
        apply ih
        · refine ⟨List.nodup_cons.mpr ⟨hnv, hinv.vis_nd⟩, ?_,
            List.mem_cons_of_mem _ hinv.start_vis, ?_, ?_, ?_, ?_⟩
          · intro x hx
            rcases List.mem_cons.mp hx with rfl | hx
            · exact List.mem_cons_self _ _
            · exact List.mem_cons_of_mem _ (hinv.stk_vis x hx)
          · intro x hx
            rcases List.mem_cons.mp hx with rfl | hx
            · exact hb
            · exact hinv.vis_bnd x hx
          · intro x hx
            rcases List.mem_cons.mp hx with rfl | hx
            · exact reach2_step (hinv.vis_rch c hcs) hb ⟨pk.2, hd, hneq⟩
            · exact hinv.vis_rch x hx
          · intro v hv hvs d' hd' hb'
            have hv1 : v ≠ pk.1 := fun h => hvs (h ▸ List.mem_cons_self _ _)
            have hv2 : v ∈ s.visited := by
              rcases List.mem_cons.mp hv with h | h
              · exact absurd h hv1
              · exact h
            have hv3 : v ∉ s.stack := fun h => hvs (List.mem_cons_of_mem _ h)
            exact List.mem_cons_of_mem _ (hinv.closed v hv2 hv3 d' hd' hb')
          · intro x hx
            rcases List.mem_cons.mp hx with rfl | hx
            · exact hb
            rcases List.mem_cons.mp hx with rfl | hx
            · exact mid_inBounds hd (hinv.vis_bnd c hcs) (hneq ▸ hb)
            · exact hinv.acc_bnd x hx
        · have hbox : pk.1 ∈ box m \ s.visited.toFinset := by
            rw [Finset.mem_sdiff, mem_box]
            exact ⟨hb, by simpa using hnv⟩
          have hset : box m \ (pk.1 :: s.visited).toFinset =
              (box m \ s.visited.toFinset).erase pk.1 := by
            ext a
            simp only [List.toFinset_cons, Finset.mem_sdiff, Finset.mem_erase,
              Finset.mem_insert, List.mem_toFinset, not_or]
            tauto
          have hcard : (box m \ (pk.1 :: s.visited).toFinset).card =
              (box m \ s.visited.toFinset).card - 1 := by
            rw [hset, Finset.card_erase_of_mem hbox]
          have hpos : 0 < (box m \ s.visited.toFinset).card :=
            Finset.card_pos.mpr ⟨pk.1, hbox⟩
          have hlen : s.stack.length = rest.length + 1 := by rw [hs]; rfl
          unfold carveMeasure at hfuel ⊢
          dsimp only
          simp only [List.length_cons]
          omega

theorem cinv_init (m : Maze3D) (k0 : Nat) (hst : m.start = (0, 0, 0))
    (hw : 0 < m.width) (hh : 0 < m.height) (hd : 0 < m.depth) :
    CInv m (carveInit m k0) := by
  have hb : inBounds m m.start := by
    rw [hst]
    simp only [inBounds]
    omega
  constructor
  case vis_nd => exact List.nodup_singleton _
  case stk_vis =>
    show ∀ c ∈ ([m.start] : List Coord), c ∈ ([m.start] : List Coord)
    exact fun c hc => hc
  case start_vis => exact List.mem_singleton_self _
  case vis_bnd =>
    show ∀ c ∈ ([m.start] : List Coord), inBounds m c
    intro c hc
    rw [List.mem_singleton] at hc
    subst hc; exact hb
  case vis_rch =>
    show ∀ c ∈ ([m.start] : List Coord), reach2 m c
    intro c hc
    rw [List.mem_singleton] at hc
    subst hc
    exact ⟨[m.start], by simp, by simp, by simp, by simpa using hb,
      List.chain'_singleton _⟩
  case closed =>
    show ∀ v ∈ ([m.start] : List Coord), v ∉ ([m.start] : List Coord) → _
    intro v hv hvs
    rw [List.mem_singleton] at hv
    subst hv
    exact absurd (List.mem_singleton_self _) hvs
  case acc_bnd =>
    show ∀ c ∈ ([m.start] : List Coord), inBounds m c
    intro c hc
    rw [List.mem_singleton] at hc
    subst hc; exact hb

theorem carveMeasure_init_lt (m : Maze3D) (k0 : Nat) :
    carveMeasure m (carveInit m k0) < carveFuel m := by
  unfold carveMeasure carveFuel carveInit
  dsimp only
  have h1 : (box m \ [m.start].toFinset).card ≤ (box m).card :=
    Finset.card_le_card (Finset.sdiff_subset)
  simp only [List.length_singleton]
  omega

/-- If a set of cells contains `start` and is closed under in-bounds
distance-2 steps, it contains every `reach2`-reachable cell. -/
theorem reach2_subset_closed {m : Maze3D} {V : List Coord}
    (hstart : m.start ∈ V)
    (hcl : ∀ v ∈ V, ∀ d ∈ directions, inBounds m (v + d + d) → v + d + d ∈ V) :
    ∀ c, reach2 m c → c ∈ V := by
  have aux : ∀ (q : List Coord) (v : Coord), v ∈ V →
      q.Chain' (fun a b => ∃ d ∈ directions, b = a + d + d) →
      (∀ x ∈ q, inBounds m x) → q.head? = some v →
      ∀ c, q.getLast? = some c → c ∈ V := by
    intro q
    induction q with
    | nil => intro v _ _ _ h; simp at h
    | cons a t iht =>
      intro v hv hchain hbnd hhead c hlast
      have hav : a = v := by simpa using hhead
      subst hav
      cases t with
      | nil =>
        simp at hlast
        subst hlast; exact hv
      | cons b t2 =>
        have hstep : ∃ d ∈ directions, b = a + d + d :=
          (List.chain'_cons.mp hchain).1
        have hbV : b ∈ V := by
          obtain ⟨d, hd, rfl⟩ := hstep
          exact hcl a hv d hd (hbnd _ (by simp))
        refine iht b hbV (List.chain'_cons.mp hchain).2 ?_ rfl c ?_
        · intro x hx; exact hbnd x (List.mem_cons_of_mem _ hx)
        · simpa using hlast
  rintro c ⟨q, hne, hhead, hlast, hbnd, hchain⟩
  exact aux q m.start hstart hchain hbnd hhead c hlast

/-- Claim C4 — for every field with positive dimensions (and the
constructor's start corner) and every sequence of random choices, the
carving loop terminates with an empty stack within its fuel, the visited
list never receives a cell twice, and the cells visited are exactly the
ones reachable from start by in-bounds distance-2 axial steps. -/
theorem claim4_carve_terminates (m : Maze3D) (oracle : Nat → Nat)
    (hst : m.start = (0, 0, 0))
    (hw : 0 < m.width) (hh : 0 < m.height) (hd : 0 < m.depth) :
    (carveRun m oracle 0).stack = [] ∧
      (carveRun m oracle 0).visited.Nodup ∧
      ∀ c, c ∈ (carveRun m oracle 0).visited ↔ reach2 m c := by
  obtain ⟨hstk, hinv⟩ := carve_main m oracle (carveFuel m) (carveInit m 0)
    (cinv_init m 0 hst hw hh hd) (carveMeasure_init_lt m 0)
  refine ⟨hstk, hinv.vis_nd, fun c => ⟨fun hc => hinv.vis_rch c hc, ?_⟩⟩
  intro hr
  refine reach2_subset_closed hinv.start_vis ?_ c hr
  intro v hv d hd2 hb2
  exact hinv.closed v hv (by rw [hstk]; exact List.not_mem_nil v) d hd2 hb2

/-- Witness for C4 on a concrete field and oracle. -/
theorem claim4_carve_terminates_witness :
    (Maze3D.init 3 3 3).start = (0, 0, 0) ∧ 0 < (Maze3D.init 3 3 3).width ∧
      0 < (Maze3D.init 3 3 3).height ∧ 0 < (Maze3D.init 3 3 3).depth ∧
      ((carveRun (Maze3D.init 3 3 3) zeroOracle 0).stack = [] ∧
        (carveRun (Maze3D.init 3 3 3) zeroOracle 0).visited.Nodup ∧
        ∀ c, c ∈ (carveRun (Maze3D.init 3 3 3) zeroOracle 0).visited ↔
          reach2 (Maze3D.init 3 3 3) c) :=
  ⟨rfl, by decide, by decide, by decide,
    claim4_carve_terminates (Maze3D.init 3 3 3) zeroOracle rfl
      (by decide) (by decide) (by decide)⟩

/-! ### All grid accesses are in bounds (claim C8) -/

theorem extraLoop_acc_bnd (m : Maze3D) (oracle : Nat → Nat)
    (hw : 0 < m.width) (hh : 0 < m.height) (hd : 0 < m.depth) :
    ∀ t s, (∀ c ∈ s.acc, inBounds m c) →
      ∀ c ∈ (extraLoop m oracle t s).acc, inBounds m c := by
  intro t
  induction t with
  | zero => intro s h; simpa [extraLoop] using h
  | succ t ih =>
    intro s h
    rw [extraLoop]
    apply ih
    intro c hc
    rcases List.mem_cons.mp hc with rfl | hc
    · simp only [inBounds]
      refine ⟨Int.natCast_nonneg _, ?_, Int.natCast_nonneg _, ?_,
        Int.natCast_nonneg _, ?_⟩
      · exact_mod_cast Nat.mod_lt _ hd
      · exact_mod_cast Nat.mod_lt _ hh
      · exact_mod_cast Nat.mod_lt _ hw
    · exact h c hc

theorem expandDirs_acc_bnd (m : Maze3D) (c : Coord) :
    ∀ ds s, s.maze = m → (∀ a ∈ s.acc, inBounds m a) →
      ∀ a ∈ (expandDirs c ds s).acc, inBounds m a := by
  intro ds
  induction ds with
  | nil => intro s _ h; exact h
  | cons d ds ih =>
    intro s hm h
    rw [expandDirs]
    split
    · rename_i hbnd
      rw [hm] at hbnd
      split
      · refine ih _ hm ?_
        intro a ha
        rcases List.mem_cons.mp ha with rfl | ha
        · exact hbnd
        · exact h a ha
      · refine ih _ hm ?_
        intro a ha
        rcases List.mem_cons.mp ha with rfl | ha
        · exact hbnd
        · exact h a ha
    · exact ih _ hm h

theorem solveLoop_acc_bnd (m : Maze3D) :
    ∀ fuel s r, s.maze = m → (∀ a ∈ s.acc, inBounds m a) →
      solveLoop fuel s = some r → ∀ a ∈ r.1.acc, inBounds m a := by
  intro fuel
  induction fuel with
  | zero => intro s r _ _ h; simp [solveLoop] at h
  | succ f ih =>
    intro s r hm hacc h
    rw [solveLoop] at h
    cases hq : s.queue with
    | nil => rw [hq] at h; simp at h; rw [← h]; exact hacc
    | cons c rest =>
      rw [hq] at h
      dsimp only at h
      split at h
      · simp at h; rw [← h]; exact hacc
      · refine ih _ _ (by rw [expandDirs_maze]; exact hm) ?_ h
        exact expandDirs_acc_bnd m c directions _ hm hacc

/-- Claim C8 — every coordinate at which the grid is accessed during
`generate_maze` (its writes; it performs no reads) and during
`solve_maze` (its reads; it performs no writes) is in bounds, for every
field with positive dimensions and the constructor's start/end corners;
hence a checked, `Option`-returning indexing would never take its
out-of-bounds branch. -/
theorem claim8_accesses_in_bounds (m : Maze3D) (oracle : Nat → Nat)
    (hst : m.start = (0, 0, 0))
    (hend : m.endCell =
      ((m.depth : Int) - 1, (m.height : Int) - 1, (m.width : Int) - 1))
    (hw : 0 < m.width) (hh : 0 < m.height) (hd : 0 < m.depth) :
    (∀ c ∈ (generate m oracle 0).acc, inBounds m c) ∧
      (∀ c ∈ (solveRun m).1.acc, inBounds m c) := by
  constructor
  · unfold generate
    dsimp only
    apply extraLoop_acc_bnd m oracle hw hh hd
    intro c hc
    obtain ⟨-, hinv⟩ := carve_main m oracle (carveFuel m) (carveInit m 0)
      (cinv_init m 0 hst hw hh hd) (carveMeasure_init_lt m 0)
    rcases List.mem_cons.mp hc with rfl | hc
    · rw [hend]; simp only [inBounds]; omega
    rcases List.mem_cons.mp hc with rfl | hc
    · rw [hst]; simp only [inBounds]; omega
    · exact hinv.acc_bnd c hc
  · unfold solveRun
    cases h : solveLoop (solveFuel m) (solveInit m) with
    | none => intro a ha; simp [solveInit] at ha
    | some r =>
      exact solveLoop_acc_bnd m _ _ _ rfl (by intro a ha; simp [solveInit] at ha) h

/-- Witness for C8 on a concrete field and oracle. -/
theorem claim8_accesses_in_bounds_witness :
    (Maze3D.init 2 2 2).start = (0, 0, 0) ∧
      (Maze3D.init 2 2 2).endCell =
        (((Maze3D.init 2 2 2).depth : Int) - 1,
          ((Maze3D.init 2 2 2).height : Int) - 1,
          ((Maze3D.init 2 2 2).width : Int) - 1) ∧
      ((∀ c ∈ (generate (Maze3D.init 2 2 2) zeroOracle 0).acc,
          inBounds (Maze3D.init 2 2 2) c) ∧
        (∀ c ∈ (solveRun (Maze3D.init 2 2 2)).1.acc,
          inBounds (Maze3D.init 2 2 2) c)) :=
  ⟨rfl, rfl,
    claim8_accesses_in_bounds (Maze3D.init 2 2 2) zeroOracle rfl rfl
      (by decide) (by decide) (by decide)⟩

/-! ### Parent-map machinery for the BFS proof -/

theorem keysOf_cons_eq (e : Coord × Option Coord)
    (t : List (Coord × Option Coord)) : keysOf (e :: t) = e.1 :: keysOf t := rfl

theorem keysOf_append (l1 l2 : List (Coord × Option Coord)) :
    keysOf (l1 ++ l2) = keysOf l1 ++ keysOf l2 := by
  simp [keysOf]

theorem keysOf_map_const (L : List Coord) (c : Coord) :
    keysOf (L.map (fun n => (n, some c))) = L := by
  simp [keysOf, List.map_map]
  exact List.map_id L

theorem depthOf_cons_none (a : Coord)
    (t : List (Coord × Option Coord)) (c : Coord) :
    depthOf ((a, none) :: t) c = if c = a then some 0 else depthOf t c := rfl

theorem depthOf_cons_some (a p : Coord)
    (t : List (Coord × Option Coord)) (c : Coord) :
    depthOf ((a, some p) :: t) c =
      if c = a then (depthOf t p).map (· + 1) else depthOf t c := rfl

theorem depthOf_cons_ne {c a : Coord} (q : Option Coord)
    (t : List (Coord × Option Coord)) (h : c ≠ a) :
    depthOf ((a, q) :: t) c = depthOf t c := by
  cases q with
  | none => rw [depthOf_cons_none, if_neg h]
  | some p => rw [depthOf_cons_some, if_neg h]

theorem plookup_mem : ∀ (l : List (Coord × Option Coord)) (c : Coord)
    (po : Option Coord), plookup c l = some po → (c, po) ∈ l := by
  intro l
  induction l with
  | nil => intro c po h; simp [plookup] at h
  | cons e t ih =>
    intro c po h
    obtain ⟨a, q⟩ := e
    rw [plookup] at h
    split at h
    · rename_i hca
      subst hca
      simp at h
      subst h
      exact List.mem_cons_self _ _
    · exact List.mem_cons_of_mem _ (ih c po h)

theorem plookup_append_of_not_mem :
    ∀ (l1 l2 : List (Coord × Option Coord)) (c : Coord), c ∉ keysOf l1 →
      plookup c (l1 ++ l2) = plookup c l2 := by
  intro l1
  induction l1 with
  | nil => intro l2 c _; rfl
  | cons e t ih =>
    intro l2 c hc
    obtain ⟨a, q⟩ := e
    have hca : c ≠ a := by
      intro h; exact hc (by rw [h]; exact List.mem_cons_self _ _)
    rw [List.cons_append, plookup, if_neg hca]
    exact ih l2 c (fun h => hc (List.mem_cons_of_mem _ h))

theorem plookup_map_const (L : List Coord) (c : Coord) :
    ∀ a, plookup a (L.map (fun n => (n, some c))) =
      if a ∈ L then some (some c) else none := by
  induction L with
  | nil => intro a; simp [plookup]
  | cons n L ih =>
    intro a
    rw [List.map_cons, plookup]
    by_cases h : a = n
    · subst h
      rw [if_pos rfl, if_pos (List.mem_cons_self _ _)]
    · rw [if_neg h, ih a]
      by_cases h2 : a ∈ L
      · rw [if_pos h2, if_pos (List.mem_cons_of_mem _ h2)]
      · rw [if_neg h2, if_neg (by simp [h, h2])]

theorem depthOf_append_of_not_mem :
    ∀ (l1 l2 : List (Coord × Option Coord)) (c : Coord), c ∉ keysOf l1 →
      depthOf (l1 ++ l2) c = depthOf l2 c := by
  intro l1
  induction l1 with
  | nil => intro l2 c _; rfl
  | cons e t ih =>
    intro l2 c hc
    obtain ⟨a, q⟩ := e
    have hca : c ≠ a := by
      intro h; exact hc (by rw [h]; exact List.mem_cons_self _ _)
    rw [List.cons_append, depthOf_cons_ne q _ hca]
    exact ih l2 c (fun h => hc (List.mem_cons_of_mem _ h))

theorem depthOf_lt_length :
    ∀ (l : List (Coord × Option Coord)) (c : Coord) (k : Nat),
      depthOf l c = some k → k < l.length := by
  intro l
  induction l with
  | nil => intro c k h; simp [depthOf] at h
  | cons e t ih =>
    intro c k h
    obtain ⟨a, q⟩ := e
    by_cases hca : c = a
    · subst hca
      cases q with
      | none =>
        rw [depthOf_cons_none, if_pos rfl] at h
        simp only [Option.some.injEq] at h
        simp only [List.length_cons]
        omega
      | some p =>
        rw [depthOf_cons_some, if_pos rfl, Option.map_eq_some'] at h
        obtain ⟨kp, hkp, hk⟩ := h
        have := ih p kp hkp
        simp only [List.length_cons]
        omega
    · rw [depthOf_cons_ne q t hca] at h
      have := ih c k h
      simp only [List.length_cons]
      omega

theorem depthOf_isSome_iff :
    ∀ (l : List (Coord × Option Coord)), AcycP l →
      ∀ c, (depthOf l c).isSome ↔ c ∈ keysOf l := by
  intro l
  induction l with
  | nil => intro _ c; simp [depthOf, keysOf]
  | cons e t ih =>
    intro h c
    obtain ⟨a, q⟩ := e
    obtain ⟨ht, _hnk, hpo⟩ := h
    by_cases hca : c = a
    · subst hca
      rw [keysOf_cons_eq]
      cases q with
      | none =>
        rw [depthOf_cons_none, if_pos rfl]
        simp
      | some p =>
        rw [depthOf_cons_some, if_pos rfl]
        rcases hpo with h | ⟨p', hp', hsome⟩
        · simp at h
        · simp only [Option.some.injEq] at hp'
          subst hp'
          obtain ⟨k0, hk0⟩ := Option.isSome_iff_exists.mp hsome
          rw [hk0]
          simp
    · rw [depthOf_cons_ne q t hca, keysOf_cons_eq, ih ht c]
      simp [hca]

theorem depthOf_zero_plookup :
    ∀ (l : List (Coord × Option Coord)) (c : Coord),
      depthOf l c = some 0 → plookup c l = some none := by
  intro l
  induction l with
  | nil => intro c h; simp [depthOf] at h
  | cons e t ih =>
    intro c h
    obtain ⟨a, q⟩ := e
    by_cases hca : c = a
    · subst hca
      cases q with
      | none => rw [plookup, if_pos rfl]
      | some p =>
        exfalso
        rw [depthOf_cons_some, if_pos rfl, Option.map_eq_some'] at h
        obtain ⟨kp, _, hk⟩ := h
        omega
    · rw [depthOf_cons_ne q t hca] at h
      rw [plookup, if_neg hca]
      exact ih c h

theorem depthOf_succ_plookup :
    ∀ (l : List (Coord × Option Coord)), AcycP l →
      ∀ (c : Coord) (k : Nat), depthOf l c = some (k + 1) →
        ∃ p, plookup c l = some (some p) ∧ depthOf l p = some k := by
  intro l
  induction l with
  | nil => intro _ c k h; simp [depthOf] at h
  | cons e t ih =>
    intro hac c k h
    obtain ⟨a, q⟩ := e
    obtain ⟨ht, hnk, _hpo⟩ := hac
    by_cases hca : c = a
    · subst hca
      cases q with
      | none =>
        rw [depthOf_cons_none, if_pos rfl] at h
        simp at h
      | some p =>
        rw [depthOf_cons_some, if_pos rfl, Option.map_eq_some'] at h
        obtain ⟨kp, hkp, hk⟩ := h
        have hk' : kp = k := by omega
        subst hk'
        have hpk : p ∈ keysOf t :=
          (depthOf_isSome_iff t ht p).mp (by rw [hkp]; rfl)
        have hpa : p ≠ c := fun hh => hnk (hh ▸ hpk)
        refine ⟨p, ?_, ?_⟩
        · rw [plookup, if_pos rfl]
        · rw [depthOf_cons_ne _ _ hpa]
          exact hkp
    · rw [depthOf_cons_ne q t hca] at h
      obtain ⟨p, hpl, hdp⟩ := ih ht c k h
      have hpk : p ∈ keysOf t :=
        (depthOf_isSome_iff t ht p).mp (by rw [hdp]; rfl)
      have hpa : p ≠ a := fun hh => hnk (hh ▸ hpk)
      refine ⟨p, ?_, ?_⟩
      · rw [plookup, if_neg hca]
        exact hpl
      · rw [depthOf_cons_ne _ _ hpa]
        exact hdp

theorem plookup_none_depth :
    ∀ (l : List (Coord × Option Coord)) (c : Coord),
      plookup c l = some none → depthOf l c = some 0 := by
  intro l
  induction l with
  | nil => intro c h; simp [plookup] at h
  | cons e t ih =>
    intro c h
    obtain ⟨a, q⟩ := e
    rw [plookup] at h
    by_cases hca : c = a
    · rw [if_pos hca] at h
      simp only [Option.some.injEq] at h
      subst h
      subst hca
      rw [depthOf_cons_none, if_pos rfl]
    · rw [if_neg hca] at h
      rw [depthOf_cons_ne q t hca]
      exact ih c h

theorem depthOf_prefix_const :
    ∀ (P l : List (Coord × Option Coord)) (c : Coord) (dc : Nat),
      (∀ e ∈ P, e.2 = some c) → (keysOf P).Nodup → c ∉ keysOf P →
      depthOf l c = some dc →
      ∀ n ∈ keysOf P, depthOf (P ++ l) n = some (dc + 1) := by
  intro P
  induction P with
  | nil => intro l c dc _ _ _ _ n hn; simp [keysOf] at hn
  | cons e P' ih =>
    intro l c dc hval hnd hcn hdc n hn
    obtain ⟨a, q⟩ := e
    have hq : q = some c := hval (a, q) (List.mem_cons_self _ _)
    subst hq
    rw [keysOf_cons_eq] at hn hcn hnd
    rw [List.cons_append]
    by_cases hna : n = a
    · subst hna
      rw [depthOf_cons_some, if_pos rfl]
      rw [depthOf_append_of_not_mem P' l c
        (fun h => hcn (List.mem_cons_of_mem _ h)), hdc]
      rfl
    · rw [depthOf_cons_ne _ _ hna]
      rcases List.mem_cons.mp hn with h | h
      · exact absurd h hna
      · exact ih l c dc (fun e2 he => hval e2 (List.mem_cons_of_mem _ he))
          (List.nodup_cons.mp hnd).2 (fun hh => hcn (List.mem_cons_of_mem _ hh))
          hdc n h

theorem acycP_append_const :
    ∀ (P l : List (Coord × Option Coord)) (c : Coord), AcycP l →
      (keysOf P).Nodup → (∀ e ∈ P, e.2 = some c) →
      (∀ a ∈ keysOf P, a ∉ keysOf l) → c ∈ keysOf l →
      AcycP (P ++ l) := by
  intro P
  induction P with
  | nil => intro l c hl _ _ _ _; exact hl
  | cons e P' ih =>
    intro l c hl hnd hval hdis hc
    obtain ⟨a, q⟩ := e
    have hq : q = some c := hval (a, q) (List.mem_cons_self _ _)
    subst hq
    rw [keysOf_cons_eq] at hnd hdis
    rw [List.cons_append]
    refine ⟨?_, ?_, ?_⟩
    · exact ih l c hl (List.nodup_cons.mp hnd).2
        (fun e he => hval e (List.mem_cons_of_mem _ he))
        (fun x hx => hdis x (List.mem_cons_of_mem _ hx)) hc
    · rw [keysOf_append]
      rw [List.mem_append]
      rintro (h | h)
      · exact (List.nodup_cons.mp hnd).1 h
      · exact hdis a (List.mem_cons_self _ _) h
    · refine Or.inr ⟨c, rfl, ?_⟩
      rw [depthOf_append_of_not_mem P' l c]
      · exact (depthOf_isSome_iff l hl c).mpr hc
      · intro hcP
        exact hdis c (List.mem_cons_of_mem _ hcP) hc

theorem pairwise_const_le {α : Type} (f : α → Nat) (k : Nat) :
    ∀ (l : List α), (∀ x ∈ l, f x = k) →
      l.Pairwise (fun a b => f a ≤ f b) := by
  intro l
  induction l with
  | nil => intro _; exact List.Pairwise.nil
  | cons a t ih =>
    intro h
    refine List.pairwise_cons.mpr ⟨?_, ih fun x hx => h x (List.mem_cons_of_mem _ hx)⟩
    intro b hb
    rw [h a (List.mem_cons_self _ _), h b (List.mem_cons_of_mem _ hb)]

theorem plookup_append_of_isSome :
    ∀ (l1 l2 : List (Coord × Option Coord)) (a : Coord) (x : Option Coord),
      plookup a l1 = some x → plookup a (l1 ++ l2) = some x := by
  intro l1
  induction l1 with
  | nil => intro l2 a x h; simp [plookup] at h
  | cons e t ih =>
    intro l2 a x h
    obtain ⟨b, q⟩ := e
    rw [plookup] at h
    rw [List.cons_append, plookup]
    split at h
    · rename_i hab
      rw [if_pos hab]
      exact h
    · rename_i hab
      rw [if_neg hab]
      exact ih l2 a x h

/-! ### Characterization of one BFS expansion -/

theorem expandDirs_spec (m : Maze3D) (c : Coord) :
    ∀ ds s, s.maze = m → (∀ d ∈ ds, d ∈ directions) →
      ∃ L : List Coord,
        (expandDirs c ds s).maze = m ∧
        (expandDirs c ds s).queue = s.queue ++ L ∧
        (expandDirs c ds s).visited = L.reverse ++ s.visited ∧
        (expandDirs c ds s).parent =
          (L.reverse.map (fun n => (n, some c))) ++ s.parent ∧
        L.Nodup ∧
        (∀ n ∈ L, validStep m c n ∧ n ∉ s.visited) ∧
        (∀ d ∈ ds, validStep m c (c + d) → c + d ∈ L ∨ c + d ∈ s.visited) := by
  intro ds
  induction ds with
  | nil =>
    intro s hm _
    exact ⟨[], hm, by simp [expandDirs], by simp [expandDirs],
      by simp [expandDirs], List.nodup_nil, by simp, by simp⟩
  | cons d ds ih =>
    intro s hm hds
    have hdmem : d ∈ directions := hds d (List.mem_cons_self _ _)
    have hds' : ∀ d2 ∈ ds, d2 ∈ directions :=
      fun d2 h2 => hds d2 (List.mem_cons_of_mem _ h2)
    rw [expandDirs]
    split
    · rename_i hbnd
      rw [hm] at hbnd
      split
      · rename_i hopen
        obtain ⟨L, h1, h2, h3, h4, h5, h6, h7⟩ := ih { s with queue := s.queue ++ [c + d], visited := (c + d) :: s.visited, parent := (c + d, some c) :: s.parent, acc := (c + d) :: s.acc } hm hds'
        refine ⟨(c + d) :: L, h1, ?_, ?_, ?_, ?_, ?_, ?_⟩
        · rw [h2]; simp
        · rw [h3]; simp
        · rw [h4]; simp
        · refine List.nodup_cons.mpr ⟨fun hmem => ?_, h5⟩
          exact (h6 _ hmem).2 (List.mem_cons_self _ _)
        · intro n hn
          rcases List.mem_cons.mp hn with rfl | hn
          · refine ⟨⟨⟨d, hdmem, rfl⟩, hbnd, ?_⟩, ?_⟩
            · rw [← hm]; exact hopen.1
            · exact hopen.2
          · exact ⟨(h6 n hn).1,
              fun hv => (h6 n hn).2 (List.mem_cons_of_mem _ hv)⟩
        · intro d2 hd2 hvs
          rcases List.mem_cons.mp hd2 with rfl | hd2
          · exact Or.inl (List.mem_cons_self _ _)
          · rcases h7 d2 hd2 hvs with h | h
            · exact Or.inl (List.mem_cons_of_mem _ h)
            · rcases List.mem_cons.mp h with he | h
              · exact Or.inl (he ▸ List.mem_cons_self _ _)
              · exact Or.inr h
      · rename_i hopen
        obtain ⟨L, h1, h2, h3, h4, h5, h6, h7⟩ := ih
          { s with acc := (c + d) :: s.acc } hm hds'
        refine ⟨L, h1, h2, h3, h4, h5, h6, ?_⟩
        intro d2 hd2 hvs
        rcases List.mem_cons.mp hd2 with rfl | hd2
        · right
          by_contra hnv
          exact hopen ⟨by rw [hm]; exact hvs.2.2, hnv⟩
        · exact h7 d2 hd2 hvs
    · rename_i hbnd
      obtain ⟨L, h1, h2, h3, h4, h5, h6, h7⟩ := ih s hm hds'
      refine ⟨L, h1, h2, h3, h4, h5, h6, ?_⟩
      intro d2 hd2 hvs
      rcases List.mem_cons.mp hd2 with rfl | hd2
      · exact absurd (by rw [← hm] at hvs; exact hvs.2.1) hbnd
      · exact h7 d2 hd2 hvs

/-! ### The BFS invariant at initialization -/

theorem sinv_init (m : Maze3D) : SInv m (solveInit m) := by
  constructor
  case maze_eq => rfl
  case vis_nd => exact List.nodup_singleton _
  case q_sub =>
    show ∀ c ∈ ([m.start] : List Coord), c ∈ ([m.start] : List Coord)
    exact fun c hc => hc
  case q_nd => exact List.nodup_singleton _
  case keys_vis =>
    intro c
    show c ∈ keysOf [(m.start, none)] ↔ c ∈ ([m.start] : List Coord)
    simp [keysOf]
  case acyc =>
    exact ⟨trivial, List.not_mem_nil _, Or.inl rfl⟩
  case root_start =>
    intro a po h hnone
    show a = m.start
    rw [show (solveInit m).parent = [(m.start, none)] from rfl, plookup] at h
    split at h
    · assumption
    · simp [plookup] at h
  case start_entry =>
    rw [show (solveInit m).parent = [(m.start, none)] from rfl, plookup,
      if_pos rfl]
  case start_vis => exact List.mem_singleton_self _
  case par_edges =>
    intro a p h
    rw [show (solveInit m).parent = [(m.start, none)] from rfl, plookup] at h
    split at h
    · simp at h
    · simp [plookup] at h
  case q_sorted => exact List.pairwise_singleton _ _
  case q_bound =>
    intro v hv c rest hqr
    rw [show (solveInit m).visited = [m.start] from rfl, List.mem_singleton] at hv
    subst hv
    have : c = m.start := by
      have : ([m.start] : List Coord) = c :: rest := hqr
      simp at this
      exact this.1.symm
    rw [this]
    omega
  case expanded =>
    intro v hv hvq
    rw [show (solveInit m).visited = [m.start] from rfl, List.mem_singleton] at hv
    subst hv
    exact absurd (List.mem_singleton_self _) hvq

theorem sinv_step (m : Maze3D) (s : SolveState) (c : Coord) (rest : List Coord)
    (hq : s.queue = c :: rest) (hinv : SInv m s) :
    SInv m (expandDirs c directions { s with queue := rest }) ∧
      solveMeasure m (expandDirs c directions { s with queue := rest }) + 1 ≤
        solveMeasure m s := by
  obtain ⟨L, hmz, hq', hv', hp', hLnd, hLprop, hcover⟩ :=
    expandDirs_spec m c directions { s with queue := rest } hinv.maze_eq
      (fun d hd => hd)
  set E := expandDirs c directions { s with queue := rest } with hEdef
  have hQ : E.queue = rest ++ L := hq'
  have hV : E.visited = L.reverse ++ s.visited := hv'
  have hP : E.parent = (L.reverse.map (fun n => (n, some c))) ++ s.parent := hp'
  have hLfresh : ∀ n ∈ L, n ∉ s.visited := fun n hn => (hLprop n hn).2
  have hLvalid : ∀ n ∈ L, validStep m c n := fun n hn => (hLprop n hn).1
  have hCover : ∀ d ∈ directions, validStep m c (c + d) →
      c + d ∈ L ∨ c + d ∈ s.visited := hcover
  have hcvis : c ∈ s.visited :=
    hinv.q_sub c (by rw [hq]; exact List.mem_cons_self _ _)
  have hckey : c ∈ keysOf s.parent := (hinv.keys_vis c).mpr hcvis
  obtain ⟨dc, hdc⟩ : ∃ dc, depthOf s.parent c = some dc :=
    Option.isSome_iff_exists.mp ((depthOf_isSome_iff _ hinv.acyc c).mpr hckey)
  have hLkeysfree : ∀ n ∈ L, n ∉ keysOf s.parent :=
    fun n hn h => hLfresh n hn ((hinv.keys_vis n).mp h)
  have hcL : c ∉ L := fun h => hLfresh c h hcvis
  have hprefval : ∀ e ∈ L.reverse.map (fun n => (n, some c)), e.2 = some c := by
    intro e he
    obtain ⟨n, _, rfl⟩ := List.mem_map.mp he
    rfl
  have hprefkeys : keysOf (L.reverse.map (fun n => (n, some c))) = L.reverse :=
    keysOf_map_const _ _
  have hdold : ∀ v ∈ keysOf s.parent, depthOf E.parent v = depthOf s.parent v := by
    intro v hv
    rw [hP]
    refine depthOf_append_of_not_mem _ _ _ ?_
    rw [hprefkeys, List.mem_reverse]
    exact fun h => hLkeysfree v h hv
  have hdnew : ∀ n ∈ L, depthOf E.parent n = some (dc + 1) := by
    intro n hn
    rw [hP]
    refine depthOf_prefix_const _ _ c dc hprefval ?_ ?_ hdc n ?_
    · rw [hprefkeys]; exact List.nodup_reverse.mpr hLnd
    · rw [hprefkeys, List.mem_reverse]; exact hcL
    · rw [hprefkeys, List.mem_reverse]; exact hn
  have hacyc : AcycP E.parent := by
    rw [hP]
    refine acycP_append_const _ _ c hinv.acyc ?_ hprefval ?_ hckey
    · rw [hprefkeys]; exact List.nodup_reverse.mpr hLnd
    · rw [hprefkeys]
      intro a ha
      rw [List.mem_reverse] at ha
      exact hLkeysfree a ha
  have hdoldD : ∀ v ∈ s.visited, dOf E v = dOf s v := by
    intro v hv
    unfold dOf
    rw [hdold v ((hinv.keys_vis v).mpr hv)]
  have hdnewD : ∀ n ∈ L, dOf E n = dc + 1 := by
    intro n hn
    unfold dOf
    rw [hdnew n hn]
    rfl
  have hdcD : dOf s c = dc := by unfold dOf; rw [hdc]; rfl
  have hrest_ge : ∀ x ∈ rest, dc ≤ dOf s x := by
    have hpw := hinv.q_sorted
    rw [hq] at hpw
    intro x hx
    have := (List.pairwise_cons.mp hpw).1 x hx
    rw [hdcD] at this
    exact this
  have hboundold : ∀ v ∈ s.visited, dOf s v ≤ dc + 1 := by
    intro v hv
    have := hinv.q_bound v hv c rest hq
    rw [hdcD] at this
    exact this
  constructor
  · constructor
    case maze_eq => exact hmz
    case vis_nd =>
      rw [hV]
      refine List.Nodup.append (List.nodup_reverse.mpr hLnd) hinv.vis_nd ?_
      intro a haL haV
      rw [List.mem_reverse] at haL
      exact hLfresh a haL haV
    case q_sub =>
      intro x hx
      rw [hQ] at hx
      rw [hV]
      rcases List.mem_append.mp hx with hx | hx
      · exact List.mem_append_right _
          (hinv.q_sub x (by rw [hq]; exact List.mem_cons_of_mem _ hx))
      · exact List.mem_append_left _ (by rw [List.mem_reverse]; exact hx)
    case q_nd =>
      rw [hQ]
      refine List.Nodup.append ?_ hLnd ?_
      · have hn := hinv.q_nd
        rw [hq] at hn
        exact (List.nodup_cons.mp hn).2
      · intro a haR haL
        exact hLfresh a haL
          (hinv.q_sub a (by rw [hq]; exact List.mem_cons_of_mem _ haR))
    case keys_vis =>
      intro x
      rw [hP, hV, keysOf_append, hprefkeys]
      simp only [List.mem_append]
      exact or_congr Iff.rfl (hinv.keys_vis x)
    case acyc => exact hacyc
    case root_start =>
      intro a po h hnone
      rw [hP] at h
      by_cases haL : a ∈ L.reverse
      · have h2 : plookup a (L.reverse.map (fun n => (n, some c))) =
            some (some c) := by
          rw [plookup_map_const, if_pos haL]
        have h3 := (plookup_append_of_isSome _ _ _ _ h2).symm.trans h
        simp only [Option.some.injEq] at h3
        rw [← h3] at hnone
        simp at hnone
      · rw [plookup_append_of_not_mem _ _ _ (by rwa [hprefkeys])] at h
        exact hinv.root_start a po h hnone
    case start_entry =>
      rw [hP, plookup_append_of_not_mem]
      · exact hinv.start_entry
      · rw [hprefkeys, List.mem_reverse]
        exact fun h => hLfresh _ h hinv.start_vis
    case start_vis =>
      rw [hV]
      exact List.mem_append_right _ hinv.start_vis
    case par_edges =>
      intro a p h
      rw [hP] at h
      by_cases haL : a ∈ L.reverse
      · have h2 : plookup a (L.reverse.map (fun n => (n, some c))) =
            some (some c) := by
          rw [plookup_map_const, if_pos haL]
        have h3 := (plookup_append_of_isSome _ _ _ _ h2).symm.trans h
        simp only [Option.some.injEq] at h3
        rw [← h3]
        exact hLvalid a (List.mem_reverse.mp haL)
      · rw [plookup_append_of_not_mem _ _ _ (by rwa [hprefkeys])] at h
        exact hinv.par_edges a p h
    case q_sorted =>
      rw [hQ, List.pairwise_append]
      refine ⟨?_, pairwise_const_le (dOf E) (dc + 1) L hdnewD, ?_⟩
      · have hpw := hinv.q_sorted
        rw [hq] at hpw
        have hrest := (List.pairwise_cons.mp hpw).2
        refine List.Pairwise.imp_of_mem ?_ hrest
        intro a b ha hb hab
        have haV : a ∈ s.visited :=
          hinv.q_sub a (by rw [hq]; exact List.mem_cons_of_mem _ ha)
        have hbV : b ∈ s.visited :=
          hinv.q_sub b (by rw [hq]; exact List.mem_cons_of_mem _ hb)
        rw [hdoldD a haV, hdoldD b hbV]
        exact hab
      · intro a ha b hb
        have haV : a ∈ s.visited :=
          hinv.q_sub a (by rw [hq]; exact List.mem_cons_of_mem _ ha)
        rw [hdoldD a haV, hdnewD b hb]
        exact hboundold a haV
    case q_bound =>
      intro v hv c' rest' hq2
      rw [hQ] at hq2
      have hc'ge : dc ≤ dOf E c' := by
        cases hr : rest with
        | nil =>
          subst hr
          simp only [List.nil_append] at hq2
          have hcL' : c' ∈ L := by rw [hq2]; exact List.mem_cons_self _ _
          rw [hdnewD c' hcL']
          omega
        | cons c2 r2 =>
          subst hr
          rw [List.cons_append] at hq2
          injection hq2 with h1 h2
          have hc2V : c2 ∈ s.visited := hinv.q_sub c2
            (by rw [hq]; exact List.mem_cons_of_mem _ (List.mem_cons_self _ _))
          have hb2 : dc ≤ dOf E c2 := by
            rw [hdoldD c2 hc2V]
            exact hrest_ge c2 (List.mem_cons_self _ _)
          rw [← h1]
          exact hb2
      rw [hV] at hv
      rcases List.mem_append.mp hv with hvL | hvV
      · rw [hdnewD v (List.mem_reverse.mp hvL)]
        omega
      · rw [hdoldD v hvV]
        have := hboundold v hvV
        omega
    case expanded =>
      intro v hv hvq d hd hvs
      rw [hV] at hv
      rw [hQ] at hvq
      rcases List.mem_append.mp hv with hvL | hvV
      · exact absurd (List.mem_append_right _ (List.mem_reverse.mp hvL)) hvq
      · by_cases hvc : v = c
        · subst hvc
          rcases hCover d hd hvs with hL | hV2
          · have hmem : v + d ∈ E.visited := by
              rw [hV]
              exact List.mem_append_left _ (List.mem_reverse.mpr hL)
            refine ⟨hmem, ?_⟩
            rw [hdnewD _ hL, hdoldD _ hvV, hdcD]
          · have hmem : v + d ∈ E.visited := by
              rw [hV]
              exact List.mem_append_right _ hV2
            refine ⟨hmem, ?_⟩
            rw [hdoldD _ hV2, hdoldD _ hvV, hdcD]
            have := hboundold _ hV2
            omega
        · have hvq' : v ∉ s.queue := by
            rw [hq]
            simp only [List.mem_cons, not_or]
            exact ⟨hvc, fun h => hvq (List.mem_append_left _ h)⟩
          obtain ⟨htv, htd⟩ := hinv.expanded v hvV hvq' d hd hvs
          have hmem : v + d ∈ E.visited := by
            rw [hV]
            exact List.mem_append_right _ htv
          refine ⟨hmem, ?_⟩
          rw [hdoldD _ htv, hdoldD _ hvV]
          exact htd
  · have hsub : L.toFinset ⊆ box m \ s.visited.toFinset := by
      intro n hn
      rw [List.mem_toFinset] at hn
      rw [Finset.mem_sdiff, mem_box]
      refine ⟨(hLvalid n hn).2.1, ?_⟩
      rw [List.mem_toFinset]
      exact hLfresh n hn
    have hset : box m \ E.visited.toFinset =
        (box m \ s.visited.toFinset) \ L.toFinset := by
      rw [hV]
      ext x
      simp only [Finset.mem_sdiff, List.toFinset_append, Finset.mem_union,
        List.mem_toFinset, List.mem_reverse]
      tauto
    have hLcard : L.toFinset.card = L.length := List.toFinset_card_of_nodup hLnd
    have hcard : (box m \ E.visited.toFinset).card =
        (box m \ s.visited.toFinset).card - L.length := by
      rw [hset, Finset.card_sdiff hsub, hLcard]
    have hle : L.length ≤ (box m \ s.visited.toFinset).card := by
      rw [← hLcard]
      exact Finset.card_le_card hsub
    have hqlen : E.queue.length = rest.length + L.length := by rw [hQ]; simp
    have hslen : s.queue.length = rest.length + 1 := by rw [hq]; rfl
    unfold solveMeasure
    omega

theorem backtrack_spec (m : Maze3D) (par : List (Coord × Option Coord))
    (hac : AcycP par)
    (hroot : ∀ a po, plookup a par = some po → po = none → a = m.start)
    (hedge : ∀ a p, plookup a par = some (some p) → validStep m p a) :
    ∀ dc c acc fuel, depthOf par c = some dc → dc < fuel →
      ∃ q : List Coord, backtrack par fuel c acc = q ++ acc ∧ q ≠ [] ∧
        q.head? = some m.start ∧ q.getLast? = some c ∧
        q.length = dc + 1 ∧ q.Chain' (validStep m) := by
  intro dc
  induction dc using Nat.strong_induction_on with
  | _ dc ih =>
    intro c acc fuel hdc hfuel
    cases fuel with
    | zero => omega
    | succ f =>
      cases dc with
      | zero =>
        have hpl : plookup c par = some none := depthOf_zero_plookup par c hdc
        have hcs : c = m.start := hroot c none hpl rfl
        refine ⟨[c], ?_, by simp, by simp [hcs], by simp, by simp,
          List.chain'_singleton _⟩
        rw [backtrack, hpl]
        rfl
      | succ k =>
        obtain ⟨p, hpl, hdp⟩ := depthOf_succ_plookup par hac c k hdc
        obtain ⟨q, hq, hne, hhead, hlast, hlen, hchain⟩ :=
          ih k (by omega) p (c :: acc) f hdp (by omega)
        refine ⟨q ++ [c], ?_, by simp, ?_, by simp, ?_, ?_⟩
        · rw [backtrack, hpl]
          show backtrack par f p (c :: acc) = (q ++ [c]) ++ acc
          rw [hq, List.append_assoc]
          rfl
        · cases q with
          | nil => exact absurd rfl hne
          | cons x t => simpa using hhead
        · simp [hlen]
        · rw [List.chain'_append]
          refine ⟨hchain, List.chain'_singleton _, ?_⟩
          intro x hx y hy
          rw [hlast] at hx
          simp at hx hy
          subst hx; subst hy
          exact hedge c p hpl

theorem bfs_walk (m : Maze3D) (s : SolveState) (hinv : SInv m s) :
    ∀ (t : List Coord) (v : Coord) (n : Nat) (w : Coord), v ∈ s.visited →
      dOf s v ≤ n → List.Chain (validStep m) v t →
      (v :: t).getLast? = some w →
      (w ∈ s.visited ∧ dOf s w ≤ n + t.length) ∨
        (∃ x ∈ s.queue, dOf s x ≤ n + t.length) := by
  intro t
  induction t with
  | nil =>
    intro v n w hv hn _ hlast
    simp at hlast
    subst hlast
    exact Or.inl ⟨hv, by omega⟩
  | cons b t ih =>
    intro v n w hv hn hchain hlast
    by_cases hvq : v ∈ s.queue
    · refine Or.inr ⟨v, hvq, ?_⟩
      simp only [List.length_cons]
      omega
    · have hstep : validStep m v b := (List.chain_cons.mp hchain).1
      obtain ⟨d, hd, hbd⟩ := hstep.1
      have hexp := hinv.expanded v hv hvq d hd (hbd ▸ hstep)
      rw [← hbd] at hexp
      obtain ⟨hbv, hbdep⟩ := hexp
      have hrec := ih b (n + 1) w hbv (by omega) (List.chain_cons.mp hchain).2
        (by simpa using hlast)
      rcases hrec with ⟨h1, h2⟩ | ⟨x, hx1, hx2⟩
      · refine Or.inl ⟨h1, ?_⟩
        simp only [List.length_cons]
        omega
      · refine Or.inr ⟨x, hx1, ?_⟩
        simp only [List.length_cons]
        omega

theorem solve_main (m : Maze3D) :
    ∀ fuel s, SInv m s → solveMeasure m s < fuel →
      ∃ s1 p, solveLoop fuel s = some (s1, p) ∧ SInv m s1 ∧
        (p ≠ [] →
          p.head? = some m.start ∧ p.getLast? = some m.endCell ∧
          p.Chain' (validStep m) ∧
          ∀ q : List Coord, q ≠ [] → q.head? = some m.start →
            q.getLast? = some m.endCell → q.Chain' (validStep m) →
            p.length ≤ q.length) := by
  intro fuel
  induction fuel with
  | zero => intro s _ h; omega
  | succ f ih =>
    intro s hinv hfuel
    cases hqs : s.queue with
    | nil =>
      refine ⟨s, [], ?_, hinv, by simp⟩
      rw [solveLoop, hqs]
    | cons c rest =>
      rw [solveLoop, hqs]
      dsimp only
      by_cases hend : c = s.maze.endCell
      · rw [if_pos hend]
        refine ⟨s, backtrack s.parent (s.parent.length + 1) s.maze.endCell [],
          rfl, hinv, ?_⟩
        intro _hne2
        have hmz := hinv.maze_eq
        have hec : s.maze.endCell = m.endCell := by rw [hmz]
        have hce : c = m.endCell := by rw [hend, hec]
        have hcvis : c ∈ s.visited :=
          hinv.q_sub c (by rw [hqs]; exact List.mem_cons_self _ _)
        have hckey : c ∈ keysOf s.parent := (hinv.keys_vis c).mpr hcvis
        obtain ⟨dc, hdc⟩ : ∃ dc, depthOf s.parent c = some dc :=
          Option.isSome_iff_exists.mp
            ((depthOf_isSome_iff _ hinv.acyc c).mpr hckey)
        have hdcD : dOf s c = dc := by unfold dOf; rw [hdc]; rfl
        have hdcfuel : dc < s.parent.length + 1 := by
          have := depthOf_lt_length s.parent c dc hdc
          omega
        obtain ⟨qp, hqp, hqpne, hqphead, hqplast, hqplen, hqpchain⟩ :=
          backtrack_spec m s.parent hinv.acyc hinv.root_start hinv.par_edges
            dc c [] (s.parent.length + 1) hdc hdcfuel
        have hback : backtrack s.parent (s.parent.length + 1)
            s.maze.endCell [] = qp := by
          rw [← hend, hqp, List.append_nil]
        rw [hback]
        refine ⟨hqphead, by rw [hqplast, hce], hqpchain, ?_⟩
        intro q hqne hqh hql hqc
        cases q with
        | nil => exact absurd rfl hqne
        | cons a t =>
          have ha : a = m.start := by simpa using hqh
          subst ha
          have hchain : List.Chain (validStep m) m.start t := hqc
          have hd0 : dOf s m.start = 0 := by
            unfold dOf
            rw [plookup_none_depth s.parent m.start hinv.start_entry]
            rfl
          have hwalk := bfs_walk m s hinv t m.start 0 m.endCell
            hinv.start_vis (by rw [hd0]) hchain hql
          simp only [List.length_cons]
          rcases hwalk with ⟨hwv, hwd⟩ | ⟨x, hxq, hxd⟩
          · rw [← hce] at hwd
            omega
          · have hcx : dOf s c ≤ dOf s x := by
              rw [hqs] at hxq
              rcases List.mem_cons.mp hxq with rfl | hx
              · exact Nat.le_refl _
              · have hpw := hinv.q_sorted
                rw [hqs] at hpw
                exact (List.pairwise_cons.mp hpw).1 x hx
            omega
      · rw [if_neg hend]
        obtain ⟨hinv', hmeas⟩ := sinv_step m s c rest hqs hinv
        obtain ⟨s1, p, hrun, hinv1, hprops⟩ := ih _ hinv' (by omega)
        exact ⟨s1, p, hrun, hinv1, hprops⟩

theorem solveMeasure_init_lt (m : Maze3D) :
    solveMeasure m (solveInit m) < solveFuel m := by
  unfold solveMeasure solveFuel solveInit
  dsimp only
  have h1 : (box m \ [m.start].toFinset).card ≤ (box m).card :=
    Finset.card_le_card Finset.sdiff_subset
  simp only [List.length_singleton]
  omega

/-- Everything `solve_maze` guarantees in one bundle: the loop returns
within its fuel, and a non-empty result runs from `start` to `end` along
admissible BFS moves and is at least as short as every such chain. -/
theorem solve_maze_props (m : Maze3D) :
    (solveLoop (solveFuel m) (solveInit m)).isSome ∧
      (solve_maze m ≠ [] →
        (solve_maze m).head? = some m.start ∧
        (solve_maze m).getLast? = some m.endCell ∧
        (solve_maze m).Chain' (validStep m) ∧
        ∀ q : List Coord, q ≠ [] → q.head? = some m.start →
          q.getLast? = some m.endCell → q.Chain' (validStep m) →
          (solve_maze m).length ≤ q.length) := by
  obtain ⟨s1, p, hrun, hinv1, hprops⟩ :=
    solve_main m (solveFuel m) (solveInit m) (sinv_init m)
      (solveMeasure_init_lt m)
  have hsome : (solveLoop (solveFuel m) (solveInit m)).isSome := by
    rw [hrun]; rfl
  have hpm : solve_maze m = p := by
    unfold solve_maze solveRun
    rw [hrun]
  refine ⟨hsome, ?_⟩
  rw [hpm]
  exact hprops

theorem chain_targets_open (m : Maze3D) :
    ∀ (p : List Coord) (a : Coord), List.Chain (validStep m) a p →
      ∀ x ∈ p, inBounds m x ∧ m.grid x = 0 := by
  intro p
  induction p with
  | nil => intro a _ x hx; simp at hx
  | cons b t ih =>
    intro a hchain x hx
    obtain ⟨hab, hrest⟩ := List.chain_cons.mp hchain
    rcases List.mem_cons.mp hx with rfl | hx
    · exact ⟨hab.2.1, hab.2.2⟩
    · exact ih b hrest x hx

theorem openPath_validChain (m : Maze3D) :
    ∀ q : List Coord, (∀ x ∈ q, openCell m x) → q.Chain' adj6 →
      q.Chain' (validStep m) := by
  intro q
  induction q with
  | nil => intro _ _; exact List.chain'_nil
  | cons a t ih =>
    intro hopen hchain
    cases t with
    | nil => exact List.chain'_singleton _
    | cons b t2 =>
      rw [List.chain'_cons] at hchain ⊢
      have hob := hopen b (by simp)
      exact ⟨⟨hchain.1, hob.1, hob.2⟩,
        ih (fun x hx => hopen x (List.mem_cons_of_mem _ hx)) hchain.2⟩

/-- Validity and minimality of a non-empty `solve_maze` result on a
constructor-shaped field whose start cell is Open. -/
theorem solve_valid_aux (m : Maze3D) (p : List Coord)
    (hst : m.start = (0, 0, 0))
    (hend : m.endCell =
      ((m.depth : Int) - 1, (m.height : Int) - 1, (m.width : Int) - 1))
    (hopen : m.grid m.start = 0)
    (hrun : solve_maze m = p) (hne : p ≠ []) :
    p.head? = some m.start ∧ p.getLast? = some m.endCell ∧
      (∀ x ∈ p, openCell m x) ∧ p.Chain' adj6 ∧ p.Chain' (validStep m) ∧
      (∀ q : List Coord, q ≠ [] → q.head? = some m.start →
        q.getLast? = some m.endCell → q.Chain' (validStep m) →
        p.length ≤ q.length) := by
  obtain ⟨-, hprops⟩ := solve_maze_props m
  rw [hrun] at hprops
  obtain ⟨hhead, hlast, hchain, hmin⟩ := hprops hne
  refine ⟨hhead, hlast, ?_, hchain.imp (fun a b hab => hab.1), hchain, hmin⟩
  cases p with
  | nil => exact absurd rfl hne
  | cons a t =>
    have ha : a = m.start := by simpa using hhead
    have hchain2 : List.Chain (validStep m) a t := hchain
    have htargets := chain_targets_open m t a hchain2
    have hsb : inBounds m a := by
      cases t with
      | nil =>
        have hse : a = m.endCell := by simpa using hlast
        rw [ha, hst] at hse
        rw [hend] at hse
        rw [ha, hst]
        simp only [Prod.mk.injEq] at hse
        simp only [inBounds]
        omega
      | cons b t2 =>
        have hb := (htargets b (List.mem_cons_self _ _)).1
        rw [ha, hst]
        simp only [inBounds] at hb ⊢
        omega
    intro x hx
    rcases List.mem_cons.mp hx with rfl | hx
    · exact ⟨hsb, by rw [ha]; exact hopen⟩
    · exact ⟨(htargets x hx).1, (htargets x hx).2⟩

/-- Counterexample to C1 as stated: on a `GridField` whose start cell is
Blocked, `solve_maze` returns a non-empty path although no walk through
Open cells from start to end exists at all, so the returned edge count
cannot equal the distance in the 6-connected graph of Open cells. -/
theorem claim1_counterexample :
    solve_maze cexStartBlockedX = [(0, 0, 0), (0, 0, 1)] ∧
      ¬ ∃ q, openPath cexStartBlockedX cexStartBlockedX.start
        cexStartBlockedX.endCell q := by
  refine ⟨rfl, ?_⟩
  rintro ⟨q, hqne, hqh, -, hqopen, -⟩
  cases q with
  | nil => exact absurd rfl hqne
  | cons a t =>
    have ha : a = cexStartBlockedX.start := by simpa using hqh
    have hoa := hqopen a (List.mem_cons_self _ _)
    rw [ha] at hoa
    exact absurd hoa.2 (by decide)

/-- Claim C1, amended — for every constructor-shaped `GridField` whose
start cell is Open, a non-empty `solve_maze` result is itself a walk
through Open cells from start to end, and no walk through Open cells
from start to end is strictly shorter: its edge count is the true BFS
distance in the 6-connected graph of Open cells. -/
theorem claim1_shortest_path (m : Maze3D) (p : List Coord)
    (hst : m.start = (0, 0, 0))
    (hend : m.endCell =
      ((m.depth : Int) - 1, (m.height : Int) - 1, (m.width : Int) - 1))
    (hopen : m.grid m.start = 0)
    (hrun : solve_maze m = p) (hne : p ≠ []) :
    openPath m m.start m.endCell p ∧
      ∀ q, openPath m m.start m.endCell q → p.length ≤ q.length := by
  obtain ⟨hh, hl, hall, hadj, _hv, hmin⟩ :=
    solve_valid_aux m p hst hend hopen hrun hne
  refine ⟨⟨hne, hh, hl, hall, hadj⟩, ?_⟩
  rintro q ⟨hqne, hqh, hql, hqopen, hqadj⟩
  exact hmin q hqne hqh hql (openPath_validChain m q hqopen hqadj)

/-- Witness for the amended C1 on a concrete field. -/
theorem claim1_shortest_path_witness :
    witOpenX.grid witOpenX.start = 0 ∧
      solve_maze witOpenX = [(0, 0, 0), (0, 0, 1)] ∧
      (openPath witOpenX witOpenX.start witOpenX.endCell
          [(0, 0, 0), (0, 0, 1)] ∧
        ∀ q, openPath witOpenX witOpenX.start witOpenX.endCell q →
          ([(0, 0, 0), (0, 0, 1)] : List Coord).length ≤ q.length) :=
  ⟨rfl, rfl,
    claim1_shortest_path witOpenX [(0, 0, 0), (0, 0, 1)] rfl (by decide)
      rfl rfl (by decide)⟩

/-- Counterexample to C2 as stated: on a `GridField` whose start cell is
Blocked, the returned path contains a coordinate whose cell is not Open. -/
theorem claim2_counterexample :
    solve_maze cexStartBlockedY = [(0, 0, 0), (0, 1, 0)] ∧
      ¬ ∀ x ∈ solve_maze cexStartBlockedY, cexStartBlockedY.grid x = 0 := by
  refine ⟨rfl, ?_⟩
  intro h
  have := h (0, 0, 0) (by rw [show solve_maze cexStartBlockedY =
    [(0, 0, 0), (0, 1, 0)] from rfl]; exact List.mem_cons_self _ _)
  exact absurd this (by decide)

/-- Claim C2, amended — for every constructor-shaped `GridField` whose
start cell is Open, a non-empty `solve_maze` result starts at `start`,
ends at `end`, visits only Open cells, and each consecutive pair differs
by exactly one axial unit step. -/
theorem claim2_path_valid (m : Maze3D) (p : List Coord)
    (hst : m.start = (0, 0, 0))
    (hend : m.endCell =
      ((m.depth : Int) - 1, (m.height : Int) - 1, (m.width : Int) - 1))
    (hopen : m.grid m.start = 0)
    (hrun : solve_maze m = p) (hne : p ≠ []) :
    p.head? = some m.start ∧ p.getLast? = some m.endCell ∧
      (∀ x ∈ p, openCell m x) ∧ p.Chain' adj6 := by
  obtain ⟨hh, hl, hall, hadj, -, -⟩ :=
    solve_valid_aux m p hst hend hopen hrun hne
  exact ⟨hh, hl, hall, hadj⟩

/-- Witness for the amended C2 on a concrete field. -/
theorem claim2_path_valid_witness :
    witOpenY.grid witOpenY.start = 0 ∧
      solve_maze witOpenY = [(0, 0, 0), (0, 1, 0)] ∧
      (([(0, 0, 0), (0, 1, 0)] : List Coord).head? = some witOpenY.start ∧
        ([(0, 0, 0), (0, 1, 0)] : List Coord).getLast? = some witOpenY.endCell ∧
        (∀ x ∈ ([(0, 0, 0), (0, 1, 0)] : List Coord), openCell witOpenY x) ∧
        ([(0, 0, 0), (0, 1, 0)] : List Coord).Chain' adj6) :=
  ⟨rfl, rfl,
    claim2_path_valid witOpenY [(0, 0, 0), (0, 1, 0)] rfl (by decide)
      rfl rfl (by decide)⟩

/-- Counterexample to C5 as stated: on the freshly constructed
all-Blocked 1 x 1 x 1 field, `end` is not connected to `start` in the
Open-cell graph (neither is even an Open cell), yet `solve_maze` returns
the non-empty path `[(0,0,0)]` rather than the empty sequence. -/
theorem claim5_counterexample :
    (¬ ∃ q, openPath cexAllBlocked cexAllBlocked.start
        cexAllBlocked.endCell q) ∧
      solve_maze cexAllBlocked = [(0, 0, 0)] := by
  refine ⟨?_, rfl⟩
  rintro ⟨q, hqne, hqh, -, hqopen, -⟩
  cases q with
  | nil => exact absurd rfl hqne
  | cons a t =>
    have ha : a = cexAllBlocked.start := by simpa using hqh
    have hoa := hqopen a (List.mem_cons_self _ _)
    rw [ha] at hoa
    exact absurd hoa.2 (by decide)

/-- Claim C5, amended — for every constructor-shaped `GridField` whose
start cell is Open and in which `end` is not reachable from `start`
through Open cells by unit axial steps, `solve_maze` terminates (the
loop returns within its fuel) and returns the empty sequence as a
normal value. -/
theorem claim5_no_path_empty (m : Maze3D)
    (hst : m.start = (0, 0, 0))
    (hend : m.endCell =
      ((m.depth : Int) - 1, (m.height : Int) - 1, (m.width : Int) - 1))
    (hopen : m.grid m.start = 0)
    (hnr : ¬ ∃ q, openPath m m.start m.endCell q) :
    solve_maze m = [] ∧ (solveLoop (solveFuel m) (solveInit m)).isSome := by
  obtain ⟨hsome, -⟩ := solve_maze_props m
  refine ⟨?_, hsome⟩
  by_contra hne
  obtain ⟨hh, hl, hall, hadj, -, -⟩ :=
    solve_valid_aux m (solve_maze m) hst hend hopen rfl hne
  exact hnr ⟨solve_maze m, hne, hh, hl, hall, hadj⟩

theorem witSealed_no_path :
    ¬ ∃ q, openPath witSealed witSealed.start witSealed.endCell q := by
  rintro ⟨q, hqne, hqh, hql, hqopen, hqadj⟩
  cases q with
  | nil => exact absurd rfl hqne
  | cons a t =>
    have ha : a = witSealed.start := by simpa using hqh
    subst ha
    cases t with
    | nil =>
      have hse : witSealed.start = witSealed.endCell := by simpa using hql
      exact absurd hse (by decide)
    | cons b t2 =>
      have hab : adj6 witSealed.start b := (List.chain'_cons.mp hqadj).1
      have hob : openCell witSealed b := hqopen b (by simp)
      obtain ⟨d, hd, rfl⟩ := hab
      simp only [directions, List.mem_cons, List.not_mem_nil, or_false] at hd
      rcases hd with rfl | rfl | rfl | rfl | rfl | rfl <;>
        exact absurd hob (by decide)

/-- Witness for the amended C5 on a concrete field with a sealed-off end. -/
theorem claim5_no_path_empty_witness :
    witSealed.grid witSealed.start = 0 ∧
      (solve_maze witSealed = [] ∧
        (solveLoop (solveFuel witSealed) (solveInit witSealed)).isSome) :=
  ⟨rfl, claim5_no_path_empty witSealed rfl (by decide) rfl witSealed_no_path⟩

/-! ### Parity and adjacency lemmas for the spanning-tree claim -/

theorem adj6_irrefl (c : Coord) : ¬ adj6 c c := by
  rintro ⟨d, hd, hcd⟩
  obtain ⟨z, y, x⟩ := c
  simp only [directions, List.mem_cons, List.not_mem_nil, or_false] at hd
  rcases hd with rfl | rfl | rfl | rfl | rfl | rfl <;>
    (simp only [Prod.mk_add_mk, Prod.mk.injEq] at hcd; omega)

theorem adj6_symm {a b : Coord} (h : adj6 a b) : adj6 b a := by
  obtain ⟨d, hd, rfl⟩ := h
  obtain ⟨z, y, x⟩ := a
  simp only [directions, List.mem_cons, List.not_mem_nil, or_false] at hd
  rcases hd with rfl | rfl | rfl | rfl | rfl | rfl
  · exact ⟨(0, 1, 0), by decide, by simp [Prod.mk_add_mk]⟩
  · exact ⟨(0, -1, 0), by decide, by simp [Prod.mk_add_mk]⟩
  · exact ⟨(0, 0, 1), by decide, by simp [Prod.mk_add_mk]⟩
  · exact ⟨(0, 0, -1), by decide, by simp [Prod.mk_add_mk]⟩
  · exact ⟨(1, 0, 0), by decide, by simp [Prod.mk_add_mk]⟩
  · exact ⟨(-1, 0, 0), by decide, by simp [Prod.mk_add_mk]⟩

theorem evenC_add_twice {c : Coord} (d : Coord) (hc : EvenC c) :
    EvenC (c + d + d) := by
  obtain ⟨z, y, x⟩ := c
  obtain ⟨dz, dy, dx⟩ := d
  simp only [EvenC, Prod.mk_add_mk] at *
  omega

theorem evenC_add_dir_oddOne {c d : Coord} (hc : EvenC c)
    (hd : d ∈ directions) : OddOne (c + d) := by
  obtain ⟨z, y, x⟩ := c
  simp only [directions, List.mem_cons, List.not_mem_nil, or_false] at hd
  rcases hd with rfl | rfl | rfl | rfl | rfl | rfl <;>
    (simp only [EvenC, OddOne, Prod.mk_add_mk] at *; omega)

theorem not_evenC_oddOne {c : Coord} (h : OddOne c) : ¬ EvenC c := by
  obtain ⟨z, y, x⟩ := c
  simp only [EvenC, OddOne] at *
  omega

theorem not_adj6_even_even {a b : Coord} (ha : EvenC a) (hb : EvenC b) :
    ¬ adj6 a b := by
  rintro ⟨d, hd, rfl⟩
  obtain ⟨z, y, x⟩ := a
  simp only [directions, List.mem_cons, List.not_mem_nil, or_false] at hd
  rcases hd with rfl | rfl | rfl | rfl | rfl | rfl <;>
    (simp only [EvenC, Prod.mk_add_mk] at *; omega)

theorem not_adj6_oddOne_oddOne {a b : Coord} (ha : OddOne a) (hb : OddOne b) :
    ¬ adj6 a b := by
  rintro ⟨d, hd, rfl⟩
  obtain ⟨z, y, x⟩ := a
  simp only [directions, List.mem_cons, List.not_mem_nil, or_false] at hd
  rcases hd with rfl | rfl | rfl | rfl | rfl | rfl <;>
    (simp only [OddOne, Prod.mk_add_mk] at *; omega)

theorem mid_eq_cases {a d a2 d2 : Coord} (ha : EvenC a) (ha2 : EvenC a2)
    (hd : d ∈ directions) (hd2 : d2 ∈ directions) (heq : a + d = a2 + d2) :
    (a2 = a ∧ d2 = d) ∨ a2 = a + d + d := by
  obtain ⟨z, y, x⟩ := a
  obtain ⟨z2, y2, x2⟩ := a2
  simp only [directions, List.mem_cons, List.not_mem_nil, or_false] at hd hd2
  rcases hd with rfl | rfl | rfl | rfl | rfl | rfl <;>
    rcases hd2 with rfl | rfl | rfl | rfl | rfl | rfl <;>
      (simp only [EvenC, Prod.mk_add_mk, Prod.mk.injEq, and_true, true_and] at *; omega)

theorem mid_adj_even {e1 d1 b : Coord} (he : EvenC e1) (hb : EvenC b)
    (hd1 : d1 ∈ directions) (hadj : adj6 (e1 + d1) b) :
    b = e1 ∨ b = e1 + d1 + d1 := by
  obtain ⟨d2, hd2, rfl⟩ := hadj
  obtain ⟨z, y, x⟩ := e1
  simp only [directions, List.mem_cons, List.not_mem_nil, or_false] at hd1 hd2
  rcases hd1 with rfl | rfl | rfl | rfl | rfl | rfl <;>
    rcases hd2 with rfl | rfl | rfl | rfl | rfl | rfl <;>
      (simp only [EvenC, Prod.mk_add_mk, Prod.mk.injEq, and_true, true_and,
        or_true, true_or] at *) <;>
    omega

/-! ### Facts about carve histories -/

theorem carved_even {st : Coord} (hst : EvenC st) :
    ∀ {vs es}, Carved st vs es → ∀ v ∈ vs, EvenC v := by
  intro vs es h
  induction h with
  | nil =>
    intro v hv
    rw [List.mem_singleton] at hv
    subst hv
    exact hst
  | cons a d n hc hmem hnotin hd hne ih =>
    intro v hv
    rcases List.mem_cons.mp hv with rfl | hv
    · rw [hne]
      exact evenC_add_twice d (ih a hmem)
    · exact ih v hv

theorem carved_edge_facts {st : Coord} :
    ∀ {vs es}, Carved st vs es → ∀ e ∈ es,
      e.2.1 ∈ directions ∧ e.2.2 = e.1 + e.2.1 + e.2.1 ∧
        e.1 ∈ vs ∧ e.2.2 ∈ vs := by
  intro vs es h
  induction h with
  | nil => intro e he; simp at he
  | cons a d n hc hmem hnotin hd hne ih =>
    intro e he
    rcases List.mem_cons.mp he with rfl | he
    · exact ⟨hd, hne, List.mem_cons_of_mem _ hmem, List.mem_cons_self _ _⟩
    · obtain ⟨h1, h2, h3, h4⟩ := ih e he
      exact ⟨h1, h2, List.mem_cons_of_mem _ h3, List.mem_cons_of_mem _ h4⟩

/-! ### Simple-path helper lemmas -/

theorem sp_mono {V W : Coord → Prop} {a b : Coord} {p : List Coord}
    (hVW : ∀ c, V c → W c) (h : SP V a b p) : SP W a b p := by
  obtain ⟨h1, h2, h3, h4, h5, h6⟩ := h
  exact ⟨h1, h2, h3, fun x hx => hVW x (h4 x hx), h5, h6⟩

theorem sp_congr {V W : Coord → Prop} (hVW : ∀ c, V c ↔ W c) (a b : Coord) :
    (∃! p, SP V a b p) → ∃! p, SP W a b p := by
  rintro ⟨p, hp, hu⟩
  exact ⟨p, sp_mono (fun c => (hVW c).mp) hp,
    fun q hq => hu q (sp_mono (fun c => (hVW c).mpr) hq)⟩

theorem sp_reverse {V : Coord → Prop} {a b : Coord} {p : List Coord}
    (h : SP V a b p) : SP V b a p.reverse := by
  obtain ⟨h1, h2, h3, h4, h5, h6⟩ := h
  refine ⟨by simpa using h1, ?_, ?_, ?_, ?_, List.nodup_reverse.mpr h6⟩
  · rw [List.head?_reverse]
    exact h3
  · rw [List.getLast?_reverse]
    exact h2
  · intro x hx
    rw [List.mem_reverse] at hx
    exact h4 x hx
  · rw [List.chain'_reverse]
    exact h5.imp (fun x y hxy => adj6_symm hxy)

theorem sp_unique_reverse {V : Coord → Prop} {a b : Coord}
    (h : ∃! p, SP V a b p) : ∃! p, SP V b a p := by
  obtain ⟨p, hp, hu⟩ := h
  refine ⟨p.reverse, sp_reverse hp, ?_⟩
  intro q hq
  have := hu q.reverse (sp_reverse hq)
  rw [← this, List.reverse_reverse]

theorem singleton_of_head_last {p : List Coord} {x : Coord} (hnd : p.Nodup)
    (hh : p.head? = some x) (hl : p.getLast? = some x) : p = [x] := by
  cases p with
  | nil => simp at hh
  | cons a t =>
    have ha : a = x := by simpa using hh
    subst ha
    cases t with
    | nil => rfl
    | cons b t2 =>
      exfalso
      have hlast : (b :: t2).getLast? = some a := by simpa using hl
      have hmem : a ∈ b :: t2 := List.mem_of_mem_getLast? hlast
      exact (List.nodup_cons.mp hnd).1 hmem

theorem head?_append_left {l l2 : List Coord} (h : l ≠ []) :
    (l ++ l2).head? = l.head? := by
  cases l with
  | nil => exact absurd rfl h
  | cons a t => rfl

theorem snoc_of_getLast? {l : List Coord} {x : Coord}
    (h : l.getLast? = some x) : l = l.dropLast ++ [x] := by
  have hne : l ≠ [] := by intro he; rw [he] at h; simp at h
  rw [List.getLast?_eq_getLast l hne, Option.some.injEq] at h
  rw [← h]
  exact (List.dropLast_append_getLast hne).symm

theorem sp_end_of_unique_nbr {V : Coord → Prop} {a b x : Coord} (y : Coord)
    {p : List Coord} (hsp : SP V a b p) (hx : x ∈ p)
    (hnbr : ∀ c ∈ p, adj6 c x → c = y) :
    p.head? = some x ∨ p.getLast? = some x := by
  obtain ⟨hne, hh, hl, hmem, hchain, hnd⟩ := hsp
  obtain ⟨l1, l2, rfl⟩ := List.append_of_mem hx
  cases l1 with
  | nil => exact Or.inl rfl
  | cons u1 t1 =>
    cases l2 with
    | nil => exact Or.inr (List.getLast?_concat _)
    | cons v1 t2 =>
      exfalso
      rw [List.chain'_append] at hchain
      obtain ⟨hc1, hc2, hcross⟩ := hchain
      have hglne : (u1 :: t1) ≠ ([] : List Coord) := List.cons_ne_nil _ _
      have hglp : (u1 :: t1).getLast? =
          some ((u1 :: t1).getLast hglne) := List.getLast?_eq_getLast _ _
      have hadj1 : adj6 ((u1 :: t1).getLast hglne) x := hcross _ hglp x rfl
      have hadj2 : adj6 x v1 := (List.chain'_cons.mp hc2).1
      have hglm : (u1 :: t1).getLast hglne ∈ u1 :: t1 := List.getLast_mem _
      have h1 : (u1 :: t1).getLast hglne = y :=
        hnbr _ (List.mem_append_left _ hglm) hadj1
      have h2 : v1 = y :=
        hnbr v1 (List.mem_append_right _ (List.mem_cons_of_mem _
          (List.mem_cons_self _ _))) (adj6_symm hadj2)
      rw [List.nodup_append] at hnd
      rw [h1] at hglm
      refine hnd.2.2 hglm ?_
      rw [← h2]
      exact List.mem_cons_of_mem _ (List.mem_cons_self _ _)

/-! ### Extending a unique-path vertex set by a pendant corridor -/

theorem spx_n_end (V : Coord → Prop) (w n : Coord)
    (nnbr : ∀ c, V c → ¬ adj6 c n) {a b : Coord} {p : List Coord}
    (hsp : SP (fun c => V c ∨ c = w ∨ c = n) a b p) (hnp : n ∈ p) :
    p.head? = some n ∨ p.getLast? = some n := by
  refine sp_end_of_unique_nbr w hsp hnp ?_
  intro c hc hadj
  rcases hsp.2.2.2.1 c hc with hcV | rfl | rfl
  · exact absurd hadj (nnbr c hcV)
  · rfl
  · exact absurd hadj (adj6_irrefl c)

theorem spx_w_end (V : Coord → Prop) (u w n : Coord)
    (wnbr : ∀ c, V c → adj6 c w → c = u) {a b : Coord} {p : List Coord}
    (hsp : SP (fun c => V c ∨ c = w ∨ c = n) a b p) (hnp : n ∉ p)
    (hwp : w ∈ p) :
    p.head? = some w ∨ p.getLast? = some w := by
  refine sp_end_of_unique_nbr u hsp hwp ?_
  intro c hc hadj
  rcases hsp.2.2.2.1 c hc with hcV | rfl | rfl
  · exact wnbr c hcV hadj
  · exact absurd hadj (adj6_irrefl c)
  · exact absurd hc hnp

theorem spx_restrict (V : Coord → Prop) (u w n : Coord)
    (hw : ¬ V w) (hn : ¬ V n)
    (wnbr : ∀ c, V c → adj6 c w → c = u)
    (nnbr : ∀ c, V c → ¬ adj6 c n) {a b : Coord} {p : List Coord}
    (ha : V a) (hb : V b)
    (hsp : SP (fun c => V c ∨ c = w ∨ c = n) a b p) : SP V a b p := by
  obtain ⟨hne, hh, hl, hmem, hchain, hnd⟩ := hsp
  have hnp : n ∉ p := by
    intro hnp
    rcases spx_n_end V w n nnbr ⟨hne, hh, hl, hmem, hchain, hnd⟩ hnp with h | h
    · rw [hh] at h
      simp only [Option.some.injEq] at h
      exact hn (h ▸ ha)
    · rw [hl] at h
      simp only [Option.some.injEq] at h
      exact hn (h ▸ hb)
  have hwp : w ∉ p := by
    intro hwp
    rcases spx_w_end V u w n wnbr ⟨hne, hh, hl, hmem, hchain, hnd⟩ hnp hwp
      with h | h
    · rw [hh] at h
      simp only [Option.some.injEq] at h
      exact hw (h ▸ ha)
    · rw [hl] at h
      simp only [Option.some.injEq] at h
      exact hw (h ▸ hb)
  refine ⟨hne, hh, hl, ?_, hchain, hnd⟩
  intro x hx
  rcases hmem x hx with hxV | rfl | rfl
  · exact hxV
  · exact absurd hx hwp
  · exact absurd hx hnp

theorem sp_self_unique (V : Coord → Prop) (x : Coord) (hx : V x) :
    ∃! p, SP V x x p := by
  refine ⟨[x], ⟨List.cons_ne_nil _ _, rfl, rfl, ?_, List.chain'_singleton _,
    List.nodup_singleton _⟩, ?_⟩
  · intro c hc
    rw [List.mem_singleton] at hc
    subst hc
    exact hx
  · rintro q ⟨hqne, hqh, hql, -, -, hqnd⟩
    exact singleton_of_head_last hqnd hqh hql

theorem spx_to_w (V : Coord → Prop) (u w n : Coord)
    (hUP : UniquePaths V) (hu : V u) (hw : ¬ V w) (hn : ¬ V n)
    (hwn : w ≠ n) (auw : adj6 u w)
    (wnbr : ∀ c, V c → adj6 c w → c = u)
    (nnbr : ∀ c, V c → ¬ adj6 c n)
    (a : Coord) (ha : V a) :
    ∃! p, SP (fun c => V c ∨ c = w ∨ c = n) a w p := by
  obtain ⟨p0, hp0, hu0⟩ := hUP a u ha hu
  obtain ⟨h0ne, h0h, h0l, h0mem, h0chain, h0nd⟩ := hp0
  have hwnotp0 : w ∉ p0 := fun hm => hw (h0mem w hm)
  refine ⟨p0 ++ [w], ⟨by simp, ?_, List.getLast?_concat _, ?_, ?_, ?_⟩, ?_⟩
  · rw [head?_append_left h0ne]
    exact h0h
  · intro x hx
    rcases List.mem_append.mp hx with hx | hx
    · exact Or.inl (h0mem x hx)
    · rw [List.mem_singleton] at hx
      subst hx
      exact Or.inr (Or.inl rfl)
  · rw [List.chain'_append]
    refine ⟨h0chain, List.chain'_singleton _, ?_⟩
    intro p1 hp1 q1 hq1
    rw [h0l] at hp1
    simp at hp1 hq1
    subst hp1
    subst hq1
    exact auw
  · rw [List.nodup_append]
    exact ⟨h0nd, List.nodup_singleton _,
      fun x hx hx2 => hwnotp0 (List.mem_singleton.mp hx2 ▸ hx)⟩
  · rintro q hq
    obtain ⟨hqne, hqh, hql, hqmem, hqchain, hqnd⟩ := hq
    have hnq : n ∉ q := by
      intro hnq
      rcases spx_n_end V w n nnbr ⟨hqne, hqh, hql, hqmem, hqchain, hqnd⟩ hnq
        with h | h
      · rw [hqh] at h
        simp only [Option.some.injEq] at h
        exact hn (h ▸ ha)
      · rw [hql] at h
        simp only [Option.some.injEq] at h
        exact hwn h
    have hqsnoc := snoc_of_getLast? hql
    have hqnd2 := hqnd
    rw [hqsnoc, List.nodup_append] at hqnd2
    have hwq0 : w ∉ q.dropLast :=
      fun hx => hqnd2.2.2 hx (List.mem_singleton_self _)
    have hq0ne : q.dropLast ≠ [] := by
      intro he
      rw [hqsnoc, he, List.nil_append] at hqh
      simp only [List.head?_cons, Option.some.injEq] at hqh
      exact hw (by rw [hqh]; exact ha)
    have hqchain2 := hqchain
    rw [hqsnoc, List.chain'_append] at hqchain2
    obtain ⟨hc0, -, hcross⟩ := hqchain2
    have hgl : q.dropLast.getLast? = some (q.dropLast.getLast hq0ne) :=
      List.getLast?_eq_getLast _ _
    have hadjl : adj6 (q.dropLast.getLast hq0ne) w := hcross _ hgl w rfl
    have hglmem : q.dropLast.getLast hq0ne ∈ q.dropLast := List.getLast_mem _
    have hglq : q.dropLast.getLast hq0ne ∈ q :=
      List.dropLast_subset _ hglmem
    have hglV : V (q.dropLast.getLast hq0ne) := by
      rcases hqmem _ hglq with h | h | h
      · exact h
      · exact absurd (h ▸ hglmem) hwq0
      · exact absurd (h ▸ hglq) hnq
    have hglu : q.dropLast.getLast hq0ne = u := wnbr _ hglV hadjl
    have hq0sp : SP (fun c => V c ∨ c = w ∨ c = n) a u q.dropLast := by
      refine ⟨hq0ne, ?_, ?_, ?_, hc0, hqnd2.1⟩
      · rw [hqsnoc, head?_append_left hq0ne] at hqh
        exact hqh
      · rw [hgl, hglu]
      · intro x hx
        exact hqmem x (List.dropLast_subset _ hx)
    have hq0V : SP V a u q.dropLast :=
      spx_restrict V u w n hw hn wnbr nnbr ha hu hq0sp
    have heq := hu0 _ hq0V
    rw [hqsnoc, heq]

theorem sp_snoc_decomp {V : Coord → Prop} {a x : Coord} {q : List Coord}
    (hsp : SP V a x q) (hax : a ≠ x) :
    ∃ q1, q = q1 ++ [x] ∧ q1 ≠ [] ∧ x ∉ q1 ∧ q1.Nodup ∧
      q1.head? = some a ∧ q1.Chain' adj6 ∧ (∀ c ∈ q1, V c) ∧
      ∃ gl, q1.getLast? = some gl ∧ adj6 gl x := by
  obtain ⟨hne, hh, hl, hmem, hchain, hnd⟩ := hsp
  have hsnoc := snoc_of_getLast? hl
  have hq1ne : q.dropLast ≠ [] := by
    intro he
    rw [hsnoc, he, List.nil_append] at hh
    simp only [List.head?_cons, Option.some.injEq] at hh
    exact hax hh.symm
  have hndA := hnd
  rw [hsnoc, List.nodup_append] at hndA
  have hxq1 : x ∉ q.dropLast :=
    fun hxx => hndA.2.2 hxx (List.mem_singleton_self _)
  have hchA := hchain
  rw [hsnoc, List.chain'_append] at hchA
  obtain ⟨hc1, -, hcross⟩ := hchA
  have hgl : q.dropLast.getLast? = some (q.dropLast.getLast hq1ne) :=
    List.getLast?_eq_getLast _ _
  refine ⟨q.dropLast, hsnoc, hq1ne, hxq1, hndA.1, ?_, hc1, ?_,
    ⟨_, hgl, hcross _ hgl x rfl⟩⟩
  · rw [hsnoc, head?_append_left hq1ne] at hh
    exact hh
  · intro c hc
    exact hmem c (List.dropLast_subset _ hc)

theorem spx_to_n (V : Coord → Prop) (u w n : Coord)
    (hUP : UniquePaths V) (hu : V u) (hw : ¬ V w) (hn : ¬ V n)
    (hwn : w ≠ n) (auw : adj6 u w) (awn : adj6 w n)
    (wnbr : ∀ c, V c → adj6 c w → c = u)
    (nnbr : ∀ c, V c → ¬ adj6 c n)
    (a : Coord) (ha : V a) :
    ∃! p, SP (fun c => V c ∨ c = w ∨ c = n) a n p := by
  obtain ⟨pw, hpw, huw⟩ := spx_to_w V u w n hUP hu hw hn hwn auw wnbr nnbr a ha
  have hnpw : n ∉ pw := by
    intro hmem
    rcases spx_n_end V w n nnbr hpw hmem with h | h
    · rw [hpw.2.1] at h
      simp only [Option.some.injEq] at h
      exact hn (h ▸ ha)
    · rw [hpw.2.2.1] at h
      simp only [Option.some.injEq] at h
      exact hwn h
  obtain ⟨hwne, hwh, hwl, hwmem, hwchain, hwnd⟩ := hpw
  refine ⟨pw ++ [n], ⟨by simp, ?_, List.getLast?_concat _, ?_, ?_, ?_⟩, ?_⟩
  · rw [head?_append_left hwne]
    exact hwh
  · intro x hx
    rcases List.mem_append.mp hx with hx | hx
    · exact hwmem x hx
    · rw [List.mem_singleton] at hx
      subst hx
      exact Or.inr (Or.inr rfl)
  · rw [List.chain'_append]
    refine ⟨hwchain, List.chain'_singleton _, ?_⟩
    intro p1 hp1 q1 hq1
    rw [hwl] at hp1
    simp at hp1 hq1
    subst hp1
    subst hq1
    exact awn
  · rw [List.nodup_append]
    exact ⟨hwnd, List.nodup_singleton _,
      fun x hx hx2 => hnpw (List.mem_singleton.mp hx2 ▸ hx)⟩
  · rintro q hq
    have han : a ≠ n := fun h => hn (h ▸ ha)
    obtain ⟨q1, hq1eq, hq1ne, hnq1, hq1nd, hq1h, hq1c, hq1mem, gl, hglq, hgladj⟩ :=
      sp_snoc_decomp hq han
    have hglmem : gl ∈ q1 := List.mem_of_mem_getLast? hglq
    have hglw : gl = w := by
      rcases hq1mem gl hglmem with h | h | h
      · exact absurd hgladj (nnbr _ h)
      · exact h
      · exact absurd (h ▸ hglmem) hnq1
    have hq1sp : SP (fun c => V c ∨ c = w ∨ c = n) a w q1 :=
      ⟨hq1ne, hq1h, by rw [hglq, hglw], hq1mem, hq1c, hq1nd⟩
    have heq := huw q1 hq1sp
    rw [hq1eq, heq]

theorem spx_w_to_n (V : Coord → Prop) (_u w n : Coord)
    (hw : ¬ V w) (hn : ¬ V n) (hwn : w ≠ n) (awn : adj6 w n)
    (nnbr : ∀ c, V c → ¬ adj6 c n) :
    ∃! p, SP (fun c => V c ∨ c = w ∨ c = n) w n p := by
  refine ⟨[w, n], ⟨List.cons_ne_nil _ _, rfl, by simp, ?_, ?_, ?_⟩, ?_⟩
  · intro x hx
    rcases List.mem_cons.mp hx with rfl | hx
    · exact Or.inr (Or.inl rfl)
    · rw [List.mem_singleton] at hx
      subst hx
      exact Or.inr (Or.inr rfl)
  · rw [List.chain'_cons]
    exact ⟨awn, List.chain'_singleton _⟩
  · simp [hwn]
  · rintro q hq
    obtain ⟨q1, hq1eq, hq1ne, hnq1, hq1nd, hq1h, hq1c, hq1mem, gl, hglq, hgladj⟩ :=
      sp_snoc_decomp hq hwn
    have hglmem : gl ∈ q1 := List.mem_of_mem_getLast? hglq
    have hglw : gl = w := by
      rcases hq1mem gl hglmem with h | h | h
      · exact absurd hgladj (nnbr _ h)
      · exact h
      · exact absurd (h ▸ hglmem) hnq1
    have hq1single : q1 = [w] :=
      singleton_of_head_last hq1nd hq1h (by rw [hglq, hglw])
    rw [hq1eq, hq1single]
    rfl

theorem up_extend (V : Coord → Prop) (u w n : Coord)
    (hUP : UniquePaths V) (hu : V u) (hw : ¬ V w) (hn : ¬ V n) (hwn : w ≠ n)
    (auw : adj6 u w) (awn : adj6 w n)
    (wnbr : ∀ c, V c → adj6 c w → c = u)
    (nnbr : ∀ c, V c → ¬ adj6 c n) :
    UniquePaths (fun c => V c ∨ c = w ∨ c = n) := by
  intro a b ha hb
  rcases ha with haV | haw | han
  · rcases hb with hbV | hbw | hbn
    · obtain ⟨p0, hp0, hu0⟩ := hUP a b haV hbV
      exact ⟨p0, sp_mono (fun c hc => Or.inl hc) hp0,
        fun q hq => hu0 q (spx_restrict V u w n hw hn wnbr nnbr haV hbV hq)⟩
    · rw [hbw]
      exact spx_to_w V u w n hUP hu hw hn hwn auw wnbr nnbr a haV
    · rw [hbn]
      exact spx_to_n V u w n hUP hu hw hn hwn auw awn wnbr nnbr a haV
  · rcases hb with hbV | hbw | hbn
    · rw [haw]
      exact sp_unique_reverse
        (spx_to_w V u w n hUP hu hw hn hwn auw wnbr nnbr b hbV)
    · rw [haw, hbw]
      exact sp_self_unique _ w (Or.inr (Or.inl rfl))
    · rw [haw, hbn]
      exact spx_w_to_n V u w n hw hn hwn awn nnbr
  · rcases hb with hbV | hbw | hbn
    · rw [han]
      exact sp_unique_reverse
        (spx_to_n V u w n hUP hu hw hn hwn auw awn wnbr nnbr b hbV)
    · rw [han, hbw]
      exact sp_unique_reverse (spx_w_to_n V u w n hw hn hwn awn nnbr)
    · rw [han, hbn]
      exact sp_self_unique _ n (Or.inr (Or.inr rfl))

theorem up_congr {V W : Coord → Prop} (hVW : ∀ c, V c ↔ W c)
    (h : UniquePaths V) : UniquePaths W := by
  intro a b ha hb
  exact sp_congr hVW a b (h a b ((hVW a).mpr ha) ((hVW b).mpr hb))

theorem carved_uniquePaths {st : Coord} (hst : EvenC st) :
    ∀ {vs es}, Carved st vs es → UniquePaths (carvedOpen vs es) := by
  intro vs es h
  induction h with
  | nil =>
    have base : UniquePaths (fun c => c = st) := by
      intro a b ha hb
      rw [ha, hb]
      exact sp_self_unique _ st rfl
    refine up_congr ?_ base
    intro c
    simp [carvedOpen]
  | @cons vs2 es2 a d n hc hmem hnotin hd hne ih =>
    have hEa : EvenC a := carved_even hst hc a hmem
    have hEn : EvenC n := by
      rw [hne]
      exact evenC_add_twice d hEa
    have hOw : OddOne (a + d) := evenC_add_dir_oddOne hEa hd
    have hmid_odd : ∀ e ∈ es2, OddOne (e.1 + e.2.1) := by
      intro e he
      obtain ⟨hed, -, he1, -⟩ := carved_edge_facts hc e he
      exact evenC_add_dir_oddOne (carved_even hst hc e.1 he1) hed
    have hWopen : ¬ carvedOpen vs2 es2 (a + d) := by
      rintro (hmem2 | ⟨e, he, heq⟩)
      · exact not_evenC_oddOne hOw (carved_even hst hc _ hmem2)
      · obtain ⟨hed, he22, he1, he2⟩ := carved_edge_facts hc e he
        have hEe1 : EvenC e.1 := carved_even hst hc e.1 he1
        rcases @mid_eq_cases a d e.1 e.2.1 hEa hEe1 hd hed heq with ⟨h1, h2⟩ | h1
        · apply hnotin
          rw [show n = e.2.2 by rw [hne, he22, h1, h2]]
          exact he2
        · apply hnotin
          rw [hne, ← h1]
          exact he1
    have hNopen : ¬ carvedOpen vs2 es2 n := by
      rintro (hmem2 | ⟨e, he, heq⟩)
      · exact hnotin hmem2
      · exact not_evenC_oddOne (by rw [heq]; exact hmid_odd e he) hEn
    have hWN : a + d ≠ n := fun h => not_evenC_oddOne (h ▸ hOw) hEn
    have wnbr : ∀ c, carvedOpen vs2 es2 c → adj6 c (a + d) → c = a := by
      intro c hcV hadj
      rcases hcV with hmem2 | ⟨e, he, heqc⟩
      · obtain ⟨d2, hd2, heq2⟩ := hadj
        have hEc : EvenC c := carved_even hst hc c hmem2
        rcases @mid_eq_cases a d c d2 hEa hEc hd hd2 heq2 with ⟨h1, -⟩ | h1
        · exact h1
        · exfalso
          apply hnotin
          rw [hne, ← h1]
          exact hmem2
      · exact absurd hadj
          (not_adj6_oddOne_oddOne (by rw [heqc]; exact hmid_odd e he) hOw)
    have nnbr : ∀ c, carvedOpen vs2 es2 c → ¬ adj6 c n := by
      intro c hcV hadj
      rcases hcV with hmem2 | ⟨e, he, heqc⟩
      · exact not_adj6_even_even (carved_even hst hc c hmem2) hEn hadj
      · obtain ⟨hed, he22, he1, he2⟩ := carved_edge_facts hc e he
        have hEe1 : EvenC e.1 := carved_even hst hc e.1 he1
        rw [heqc] at hadj
        rcases mid_adj_even hEe1 hEn hed hadj with h1 | h1
        · exact hnotin (by rw [h1]; exact he1)
        · apply hnotin
          rw [h1, ← he22]
          exact he2
    have hup := up_extend (carvedOpen vs2 es2) a (a + d) n ih (Or.inl hmem)
      hWopen hNopen hWN ⟨d, hd, rfl⟩ ⟨d, hd, hne⟩ wnbr nnbr
    refine up_congr ?_ hup
    intro c
    simp only [carvedOpen, List.mem_cons]
    constructor
    · rintro ((h1 | ⟨e, he, hc2⟩) | h1 | h1)
      · exact Or.inl (Or.inr h1)
      · exact Or.inr ⟨e, Or.inr he, hc2⟩
      · exact Or.inr ⟨(a, d, n), Or.inl rfl, h1⟩
      · exact Or.inl (Or.inl h1)
    · rintro ((h1 | h1) | ⟨e, he | he, hc2⟩)
      · exact Or.inr (Or.inr h1)
      · exact Or.inl (Or.inl h1)
      · subst he
        exact Or.inr (Or.inl hc2)
      · exact Or.inl (Or.inr ⟨e, he, hc2⟩)

theorem setCell_eq_zero_iff (g : Coord → Nat) (x c : Coord) :
    setCell g x 0 c = 0 ↔ c = x ∨ g c = 0 := by
  unfold setCell
  split
  · rename_i hcx
    simp [hcx]
  · rename_i hcx
    simp [hcx]

theorem carve_tree (m : Maze3D) (oracle : Nat → Nat) :
    ∀ fuel s, TreeInv m s → TreeInv m (carveLoop m oracle fuel s) := by
  intro fuel
  induction fuel with
  | zero =>
    intro s h
    exact h
  | succ f ih =>
    intro s h
    cases hs : s.stack with
    | nil =>
      have heq : carveLoop m oracle (f + 1) s = s := by rw [carveLoop, hs]
      rw [heq]
      exact h
    | cons c rest =>
      rw [carveLoop_cons m oracle f s c rest hs]
      have hcs : c ∈ s.visited :=
        h.stk c (by rw [hs]; exact List.mem_cons_self c rest)
      split
      · apply ih
        refine ⟨?_, h.cvd, h.gchar⟩
        intro x hx
        exact h.stk x (by rw [hs]; exact List.mem_cons_of_mem c hx)
      · rename_i hne
        dsimp only
        generalize hpk : (latticeNbrs m s.visited c).get
          ⟨oracle s.k % (latticeNbrs m s.visited c).length,
            Nat.mod_lt _ (List.length_pos.mpr hne)⟩ = pk
        have hmem : pk ∈ latticeNbrs m s.visited c := by
          rw [← hpk]
          exact List.get_mem _ _ _
        have hmem2 : (pk.1, pk.2) ∈ latticeNbrs m s.visited c := by
          rw [Prod.mk.eta]
          exact hmem
        obtain ⟨hd, hneq, hb, hnv⟩ := mem_latticeNbrs.mp hmem2
        apply ih
        refine ⟨?_, Carved.cons c pk.2 pk.1 h.cvd hcs hnv hd hneq, ?_⟩
        · intro x hx
          rcases List.mem_cons.mp hx with rfl | hx
          · exact List.mem_cons_self _ _
          · exact List.mem_cons_of_mem _ (h.stk x hx)
        · intro x
          rw [show ({ grid := setCell (setCell s.grid (c + pk.2) 0) pk.1 0, visited := pk.1 :: s.visited, stack := pk.1 :: s.stack, edges := (c, pk.2, pk.1) :: s.edges, k := s.k + 1, acc := pk.1 :: (c + pk.2) :: s.acc } : CarveState).grid = setCell (setCell s.grid (c + pk.2) 0) pk.1 0 from rfl]
          rw [setCell_eq_zero_iff, setCell_eq_zero_iff, h.gchar x]
          simp only [carvedOpen, List.mem_cons]
          constructor
          · rintro (h1 | h1 | (h1 | ⟨e, he, h1⟩))
            · exact Or.inl (Or.inl h1)
            · exact Or.inr ⟨(c, pk.2, pk.1), Or.inl rfl, h1⟩
            · exact Or.inl (Or.inr h1)
            · exact Or.inr ⟨e, Or.inr he, h1⟩
          · rintro ((h1 | h1) | ⟨e, he | he, h1⟩)
            · exact Or.inl h1
            · exact Or.inr (Or.inr (Or.inl h1))
            · subst he
              exact Or.inr (Or.inl h1)
            · exact Or.inr (Or.inr (Or.inr ⟨e, he, h1⟩))

theorem tree_init (w h d : Nat) (k0 : Nat) :
    TreeInv (Maze3D.init w h d) (carveInit (Maze3D.init w h d) k0) := by
  refine ⟨fun c hc => hc, Carved.nil, ?_⟩
  intro c
  rw [show (carveInit (Maze3D.init w h d) k0).grid =
    setCell (fun _ => 1) ((0 : Int), (0 : Int), (0 : Int)) 0 from rfl]
  rw [setCell_eq_zero_iff]
  simp [carvedOpen, Maze3D.init, carveInit]

/-- Claim C7: for every field of positive dimensions built by the
constructor and every sequence of random choices, immediately after the
carving loop of `generate_maze` ends (before `start`/`end` are forced Open
and before the extra random openings), the Open cells under 6-connected
unit adjacency form a tree: between any two Open cells there is exactly
one simple path (whose existence part is connectivity). -/
theorem claim7_carve_tree (w h d : Nat) (oracle : Nat → Nat) (k0 : Nat)
    (_hw : 0 < w) (_hh : 0 < h) (_hd : 0 < d) :
    UniquePaths (fun c => (carveRun (Maze3D.init w h d) oracle k0).grid c = 0) := by
  have htree : TreeInv (Maze3D.init w h d)
      (carveRun (Maze3D.init w h d) oracle k0) :=
    carve_tree _ oracle (carveFuel _) _ (tree_init w h d k0)
  have hst : EvenC (Maze3D.init w h d).start := by
    exact ⟨rfl, rfl, rfl⟩
  exact up_congr (fun c => (htree.gchar c).symm)
    (carved_uniquePaths hst htree.cvd)

/-- Concrete instantiation of `claim7_carve_tree` at a 1×1×1 field with
the all-zeroes oracle. -/
theorem claim7_carve_tree_witness :
    (0 < 1) ∧
      UniquePaths (fun c => (carveRun (Maze3D.init 1 1 1) zeroOracle 0).grid c = 0) :=
  ⟨by decide,
    claim7_carve_tree 1 1 1 zeroOracle 0 (by decide) (by decide) (by decide)⟩

end Maze
